import Mathlib

/-!
Shallow embedding of the peptide_prices repository (src/prepare_data.py and
src/app/app.py) for checking the natural-language specification.

Strings are modelled as `List Char`.  Python floats are modelled as exact
fractions `Frac` (an `Int` numerator over a `Nat` denominator, kept
executable so that concrete runs reduce in the kernel); `Frac.val` maps a
fraction to `ℚ` for the algebraic statements.  Absent values (`None` /
`NaN`) are `Option`; Python truthiness is modelled explicitly: a string is
truthy iff non-empty, a number iff non-zero, `None` is falsy.
-/

/-- Exact fraction: the value is `num / den`.  Every fraction built by the
embedding has a positive denominator. -/
structure Frac where
  num : Int
  den : Nat
  deriving DecidableEq, Repr

/-- The rational value of a fraction. -/
def Frac.val (f : Frac) : ℚ := (f.num : ℚ) / (f.den : ℚ)

/-- Zero test (Python float truthiness). -/
def Frac.isZero (f : Frac) : Bool := f.num == 0

/-- Negation. -/
def Frac.fneg (f : Frac) : Frac := ⟨-f.num, f.den⟩

/-- Addition. -/
def Frac.fadd (a b : Frac) : Frac := ⟨a.num * b.den + b.num * a.den, a.den * b.den⟩

/-- Multiplication. -/
def Frac.fmul (a b : Frac) : Frac := ⟨a.num * b.num, a.den * b.den⟩

/-- Division (callers guard against a zero divisor). -/
def Frac.fdiv (a b : Frac) : Frac := ⟨a.num * b.den * b.num.sign, a.den * b.num.natAbs⟩

/-- Multiplication by `10 ^ e` or `10 ^ (-e)`. -/
def Frac.scale10 (f : Frac) (neg : Bool) (e : Nat) : Frac :=
  if neg then ⟨f.num, f.den * 10 ^ e⟩ else ⟨f.num * 10 ^ e, f.den⟩

/-- Value comparison `<` by cross multiplication. -/
def Frac.blt (a b : Frac) : Bool := a.num * b.den < b.num * a.den

/-- Value comparison `≤` by cross multiplication. -/
def Frac.ble (a b : Frac) : Bool := a.num * b.den ≤ b.num * a.den

/-- Value equality by cross multiplication. -/
def Frac.beqv (a b : Frac) : Bool := a.num * b.den == b.num * a.den

/-- Value minimum (pandas `min` picks the smaller value). -/
def Frac.fmin (a b : Frac) : Frac := if Frac.ble a b then a else b

/-- The fraction of a natural number. -/
def Frac.ofN (n : Nat) : Frac := ⟨n, 1⟩

/-- Character list of a string literal (our model of Python `str`). -/
def lit (s : String) : List Char := s.data

/-- Python `\s` for the ASCII range: space, tab, newline, CR, VT, FF. -/
def isSpaceChar (c : Char) : Bool :=
  c == ' ' || c == '\t' || c == '\n' || c == '\r' || c == '\x0b' || c == '\x0c'

/-- Python `\w` (ASCII range): alphanumeric or underscore. -/
def isWordChar (c : Char) : Bool := c.isAlphanum || c == '_'

/-- `str.lower` (ASCII). -/
def lowerL (s : List Char) : List Char := s.map Char.toLower

/-- `str.upper` (ASCII). -/
def upperL (s : List Char) : List Char := s.map Char.toUpper

/-- `str.strip()`: remove leading and trailing whitespace. -/
def stripL (s : List Char) : List Char :=
  ((s.dropWhile isSpaceChar).reverse.dropWhile isSpaceChar).reverse

/-- Numeric value of a digit run, as in `int("...")`. -/
def natOfDigits (ds : List Char) : Nat :=
  ds.foldl (fun n c => n * 10 + (c.toNat - 48)) 0

/-- Value of `<intpart>.<fracpart>` as an exact fraction. -/
def decValue (ip fp : List Char) : Frac :=
  ⟨(natOfDigits ip : Int) * (10 : Int) ^ fp.length + (natOfDigits fp : Int),
   (10 : Nat) ^ fp.length⟩

/-- Consume one optional sign character; returns (isNegative, rest). -/
def parseSignL : List Char → Bool × List Char
  | [] => (false, [])
  | c :: r => if c = '-' then (true, r) else if c = '+' then (false, r) else (false, c :: r)

/-- Exponent tail of a Python float literal: `[+-]?digits`, end of string. -/
def parseExpTail (m : Frac) (r : List Char) : Option Frac :=
  let p := parseSignL r
  let q := List.span Char.isDigit p.2
  if q.1.isEmpty || !q.2.isEmpty then none
  else some (m.scale10 p.1 (natOfDigits q.1))

/-- Optional exponent part (`e`/`E` then signed digits) of a float literal. -/
def parseExpPart (m : Frac) : List Char → Option Frac
  | [] => some m
  | 'e' :: r => parseExpTail m r
  | 'E' :: r => parseExpTail m r
  | _ => none

/-- Core of Python `float(s)` on a stripped string: `[+-]? (d+ | d+.d* | .d+) exp?`. -/
def pyFloatCore (s : List Char) : Option Frac :=
  let sg := parseSignL s
  let ipr := List.span Char.isDigit sg.2
  match ipr.2 with
  | '.' :: s3 =>
    let fpr := List.span Char.isDigit s3
    if ipr.1.isEmpty && fpr.1.isEmpty then none
    else (parseExpPart (decValue ipr.1 fpr.1) fpr.2).map
      (fun m => if sg.1 then m.fneg else m)
  | _ =>
    if ipr.1.isEmpty then none
    else (parseExpPart (decValue ipr.1 []) ipr.2).map
      (fun m => if sg.1 then m.fneg else m)

/-- Python `float(s)` (which itself ignores surrounding whitespace). -/
def pyFloatOfStr (s : List Char) : Option Frac := pyFloatCore (stripL s)

/-- `to_float_price` from src/prepare_data.py (string input path):
strip, drop every `$` and `,`, empty means `None`, then `float` or `None`. -/
def to_float_price (x : List Char) : Option Frac :=
  let s := stripL x
  let s := s.filter (fun c => !(c == '$' || c == ','))
  if s.isEmpty then none else pyFloatOfStr s

/-- Attempt of the regex `(\d+(?:\.\d+)?)(mg)` anchored at the head of `s`. -/
def mgAt (s : List Char) : Option Frac :=
  let d1r := List.span Char.isDigit s
  if d1r.1.isEmpty then none
  else
    match d1r.2 with
    | '.' :: r2 =>
      let d2r := List.span Char.isDigit r2
      if d2r.1.isEmpty then none
      else if (lit "mg").isPrefixOf d2r.2 then some (decValue d1r.1 d2r.1) else none
    | r1 => if (lit "mg").isPrefixOf r1 then some (decValue d1r.1 []) else none

/-- `re.search` of the dose regex: leftmost successful attempt. -/
def mgScan : List Char → Option Frac
  | [] => none
  | c :: rest =>
    match mgAt (c :: rest) with
    | some v => some v
    | none => mgScan rest

/-- `extract_mg` from src/prepare_data.py: lowercase, delete spaces, search. -/
def extract_mg (t : List Char) : Option Frac :=
  if t.isEmpty then none
  else mgScan ((lowerL t).filter (fun c => c != ' '))

/-- Attempt of the regex `(\d+)vials` anchored at the head of `s`. -/
def vialsAt (s : List Char) : Option Nat :=
  let d1r := List.span Char.isDigit s
  if d1r.1.isEmpty then none
  else if (lit "vials").isPrefixOf d1r.2 then some (natOfDigits d1r.1) else none

/-- `re.search` of `(\d+)vials`. -/
def vialsScan : List Char → Option Nat
  | [] => none
  | c :: rest =>
    match vialsAt (c :: rest) with
    | some v => some v
    | none => vialsScan rest

/-- Attempt of the regex `x(\d+)vials` anchored at the head of `s`. -/
def xvialsAt (s : List Char) : Option Nat :=
  match s with
  | 'x' :: r => vialsAt r
  | _ => none

/-- `re.search` of `x(\d+)vials`. -/
def xvialsScan : List Char → Option Nat
  | [] => none
  | c :: rest =>
    match xvialsAt (c :: rest) with
    | some v => some v
    | none => xvialsScan rest

/-- `extract_vials` from src/prepare_data.py. -/
def extract_vials (t : List Char) : Option Nat :=
  if t.isEmpty then none
  else
    let s := (lowerL t).filter (fun c => c != ' ')
    match vialsScan s with
    | some n => some n
    | none => xvialsScan s

/-- Python `a or b` on optional floats: `a` when truthy (present and nonzero). -/
def pyOrQ (a b : Option Frac) : Option Frac :=
  match a with
  | some x => if x.isZero then b else some x
  | none => b

/-- Python `extract_vials(spec) or 10`: the default unit count. -/
def pyOrTen (a : Option Nat) : Nat :=
  match a with
  | some n => if n = 0 then 10 else n
  | none => 10

/-- One standardized record (one row of the master artifact). -/
structure StdRecord where
  vendor : List Char
  product_name : List Char
  spec_raw : List Char
  price_usd : Option Frac
  dose_mg_per_vial : Option Frac
  vials_per_kit : Nat
  total_mg_per_kit : Option Frac
  price_per_mg : Option Frac
  source_file : List Char
  deriving DecidableEq, Repr

/-- `standardize_row` from src/prepare_data.py. -/
def standardize_row (vendor product_name spec price_str source_file : List Char) :
    StdRecord :=
  let price := to_float_price price_str
  let dose := pyOrQ (extract_mg spec) (extract_mg product_name)
  let vials := pyOrTen (extract_vials spec)
  let total : Option Frac :=
    match dose with
    | some d => if d.isZero then none else some (d.fmul (Frac.ofN vials))
    | none => none
  let ppm : Option Frac :=
    match price, total with
    | some p, some t => if t.isZero then none else some (p.fdiv t)
    | _, _ => none
  { vendor := vendor
    product_name := if product_name.isEmpty then [] else stripL product_name
    spec_raw := if spec.isEmpty then [] else stripL spec
    price_usd := price
    dose_mg_per_vial := dose
    vials_per_kit := vials
    total_mg_per_kit := total
    price_per_mg := ppm
    source_file := source_file }

/-! ## Canonical name resolver (src/app/app.py lines 106-216) -/

/-- The `\b` after the unit: next char absent or not a word char. -/
def wordBoundaryAfter : List Char → Bool
  | [] => true
  | c :: _ => !isWordChar c

/-- Matched-unit length of `(MG|MCG|UG|IU)\b` at the head of `s` (ordered
alternation; the alternatives' leading characters are mutually exclusive). -/
def doseUnitLen (s : List Char) : Option Nat :=
  if (lit "MG").isPrefixOf s && wordBoundaryAfter (s.drop 2) then some 2
  else if (lit "MCG").isPrefixOf s && wordBoundaryAfter (s.drop 3) then some 3
  else if (lit "UG").isPrefixOf s && wordBoundaryAfter (s.drop 2) then some 2
  else if (lit "IU").isPrefixOf s && wordBoundaryAfter (s.drop 2) then some 2
  else none

/-- `\s*` then the unit: length matched from `rest`, given `consumed` chars
of the numeric part already matched. -/
def doseAfterNum (consumed : Nat) (rest : List Char) : Option Nat :=
  let wsr := List.span isSpaceChar rest
  match doseUnitLen wsr.2 with
  | some u => some (consumed + wsr.1.length + u)
  | none => none

/-- Length of a match of `\b\d+(\.\d+)?\s*(MG|MCG|UG|IU)\b` anchored at the
head of `s`, where `prevWord` says whether the preceding character (if any)
is a word character (so `\b` holds iff `prevWord = false`). -/
def doseMatchLen (prevWord : Bool) (s : List Char) : Option Nat :=
  if prevWord then none
  else
    let d1r := List.span Char.isDigit s
    if d1r.1.isEmpty then none
    else
      match d1r.2 with
      | '.' :: r2 =>
        let d2r := List.span Char.isDigit r2
        if d2r.1.isEmpty then none
        else doseAfterNum (d1r.1.length + 1 + d2r.1.length) d2r.2
      | r1 => doseAfterNum d1r.1.length r1

/-- `re.sub` of the dose-token regex with `""`: scan left to right, drop each
non-overlapping match, resume after it.  `fuel ≥ s.length` always suffices
since every match consumes at least one character. -/
def removeDoseAux : Nat → Bool → List Char → List Char
  | 0, _, s => s
  | _ + 1, _, [] => []
  | fuel + 1, prevWord, c :: rest =>
    match doseMatchLen prevWord (c :: rest) with
    | some n => removeDoseAux fuel true ((c :: rest).drop n)
    | none => c :: removeDoseAux fuel (isWordChar c) rest

/-- `.str.replace(dose regex, "", regex=True)` step of the cleanup. -/
def removeDose (s : List Char) : List Char := removeDoseAux s.length false s

/-- `.str.replace(r"[-_]", " ", regex=True)`. -/
def hyphToSpace (s : List Char) : List Char :=
  s.map (fun c => if c == '-' || c == '_' then ' ' else c)

mutual

/-- `.str.replace(r"[^\w]+", " ", regex=True)`: each run of non-word
characters becomes a single space (`nwSkip` consumes the rest of a run). -/
def nonWordToSpace : List Char → List Char
  | [] => []
  | c :: rest =>
    if isWordChar c then c :: nonWordToSpace rest else ' ' :: nwSkip rest

/-- Rest of a non-word run already opened by `nonWordToSpace`. -/
def nwSkip : List Char → List Char
  | [] => []
  | c :: rest =>
    if isWordChar c then c :: nonWordToSpace rest else nwSkip rest

end

mutual

/-- `.str.replace(r"\s+", " ", regex=True)` (`wsSkip` consumes a run). -/
def wsToSpace : List Char → List Char
  | [] => []
  | c :: rest =>
    if isSpaceChar c then ' ' :: wsSkip rest else c :: wsToSpace rest

/-- Rest of a whitespace run already opened by `wsToSpace`. -/
def wsSkip : List Char → List Char
  | [] => []
  | c :: rest =>
    if isSpaceChar c then wsSkip rest else c :: wsToSpace rest

end

/-- Step-1 cleanup of the canonical-peptide build (app.py lines 106-115). -/
def cleanName (x : List Char) : List Char :=
  stripL (wsToSpace (nonWordToSpace (hyphToSpace (removeDose (upperL x)))))

/-- `.str.startswith`. -/
def startsW (p s : List Char) : Bool := p.isPrefixOf s

/-- `.str.contains` (plain substring for the patterns used here). -/
def hasSub (s p : List Char) : Bool :=
  match s with
  | [] => p.isEmpty
  | _ :: t => p.isPrefixOf s || hasSub t p

/-- `.str.replace(" ", "", regex=False)`. -/
def delSpaces (s : List Char) : List Char := s.filter (fun c => c != ' ')

/-- One alias rule: a predicate on the snapshot value and a literal output. -/
structure ARule where
  pred : List Char → Bool
  out : List Char

/-- `df.loc[mask_i, "canonical_peptide"] = V_i`, rule after rule; every mask
is computed on the same snapshot `cp`, so the last matching rule wins. -/
def runRules (cp : List Char) (v0 : List Char) (rs : List ARule) : List Char :=
  rs.foldl (fun v r => if r.pred cp then r.out else v) v0

/-- The base alias rules (app.py lines 117-121), masks on the cleaned name. -/
def baseRules : List ARule :=
  [⟨fun c => startsW (lit "RETA") c, lit "RETATRUTIDE"⟩,
   ⟨fun c => startsW (lit "TIRZE") c, lit "TIRZEPATIDE"⟩,
   ⟨fun c => startsW (lit "SEMA") c, lit "SEMAGLUTIDE"⟩]

/-- The alias-normalization block (app.py lines 123-216), in source order;
masks are all computed on the snapshot taken at line 126. -/
def aliasRules : List ARule :=
  [⟨fun c => c == lit "SS 31", lit "SS-31"⟩,
   ⟨fun c => startsW (lit "ARA 290") c, lit "ARA-290"⟩,
   ⟨fun c => startsW (lit "SNAP 8") c, lit "SNAP-8"⟩,
   ⟨fun c => startsW (lit "BPC 157") c, lit "BPC 157"⟩,
   ⟨fun c => hasSub c (lit "BAC WATER"), lit "BACTERIOSTATIC WATER"⟩,
   ⟨fun c => hasSub c (lit "BACTERIOSTATIC"), lit "BACTERIOSTATIC WATER"⟩,
   ⟨fun c => startsW (lit "BPC TB") c, lit "BPC TB BLEND"⟩,
   ⟨fun c => hasSub c (lit "TB") && hasSub c (lit "BPC"), lit "BPC TB BLEND"⟩,
   ⟨fun c => startsW (lit "CAGR") c, lit "CAGRILINTIDE"⟩,
   ⟨fun c => hasSub c (lit "EPITHALON"), lit "EPITHALON"⟩,
   ⟨fun c => hasSub c (lit "EPITALON"), lit "EPITHALON"⟩,
   ⟨fun c => startsW (lit "GLUTATHIONE") c, lit "GLUTATHIONE"⟩,
   ⟨fun c => hasSub c (lit "MAZDU"), lit "MAZDUTIDE"⟩,
   ⟨fun c => delSpaces c == lit "MOTSC", lit "MOTS C"⟩,
   ⟨fun c => hasSub c (lit "CJC") && hasSub c (lit "NO DAC"), lit "CJC NO DAC"⟩,
   ⟨fun c => hasSub c (lit "CJC") && hasSub c (lit "WITHOUT DAC"), lit "CJC NO DAC"⟩,
   ⟨fun c => hasSub c (lit "CJC") && hasSub c (lit "WHITOUT DAC"), lit "CJC NO DAC"⟩,
   ⟨fun c => hasSub c (lit "CJC") && hasSub c (lit "IPA"), lit "CJC NO DAC IPA"⟩,
   ⟨fun c => hasSub c (lit "MELANOTAN 1"), lit "MELANOTAN I"⟩,
   ⟨fun c => hasSub c (lit "MELANOTAN I"), lit "MELANOTAN I"⟩,
   ⟨fun c => c == lit "MELANOTAN", lit "MELANOTAN I"⟩,
   ⟨fun c => c == lit "MT 1", lit "MELANOTAN I"⟩,
   ⟨fun c => startsW (lit "KLOW") c, lit "KLOW"⟩,
   ⟨fun c => hasSub c (lit "KLOW TB BP KP GHK"), lit "KLOW"⟩,
   ⟨fun c => hasSub c (lit "BPC GHK CU TB KPV"), lit "KLOW"⟩,
   ⟨fun c => startsW (lit "GLOW") c, lit "GLOW"⟩,
   ⟨fun c => hasSub c (lit "GLOW TB BP GHK"), lit "GLOW"⟩,
   ⟨fun c => hasSub c (lit "GLOW TBMG"), lit "GLOW"⟩,
   ⟨fun c => hasSub c (lit "BPC GHK CU TB") && !hasSub c (lit "KPV"), lit "GLOW"⟩,
   ⟨fun c => c == lit "HCG", lit "HUMAN CHORIONIC GONADOTROPIN"⟩,
   ⟨fun c => hasSub c (lit "CHORIONIC"), lit "HUMAN CHORIONIC GONADOTROPIN"⟩,
   ⟨fun c => hasSub (delSpaces c) (lit "PEGMGF"), lit "PEG MGF"⟩,
   ⟨fun c => startsW (lit "AOD") c, lit "AOD-9604"⟩,
   ⟨fun c => startsW (lit "FOXO4") c, lit "FOXO4-DRI"⟩,
   ⟨fun c => hasSub c (lit "IGF"), lit "IGF-1 LR3"⟩,
   ⟨fun c => startsW (lit "KISSPEPTIN") c, lit "KISSPEPTIN-10"⟩,
   ⟨fun c => startsW (lit "L CARNITINE") c, lit "L-CARNITINE"⟩,
   ⟨fun c => c == lit "LL37" || c == lit "LL 37", lit "LL-37"⟩,
   ⟨fun c => c == lit "PT141" || c == lit "PT 141", lit "PT-141"⟩]

/-- The full canonical-name resolver: cleanup, base rules on the cleaned
snapshot, then the alias block on the post-base snapshot. -/
def resolveName (x : List Char) : List Char :=
  let c := cleanName x
  let v1 := runRules c c baseRules
  runRules (upperL v1) v1 aliasRules

/-- All literal values an alias rule can write. -/
def canonLiterals : List (List Char) :=
  [lit "RETATRUTIDE", lit "TIRZEPATIDE", lit "SEMAGLUTIDE", lit "SS-31",
   lit "ARA-290", lit "SNAP-8", lit "BPC 157", lit "BACTERIOSTATIC WATER",
   lit "BPC TB BLEND", lit "CAGRILINTIDE", lit "EPITHALON", lit "GLUTATHIONE",
   lit "MAZDUTIDE", lit "MOTS C", lit "CJC NO DAC", lit "CJC NO DAC IPA",
   lit "MELANOTAN I", lit "KLOW", lit "GLOW",
   lit "HUMAN CHORIONIC GONADOTROPIN", lit "PEG MGF", lit "AOD-9604",
   lit "FOXO4-DRI", lit "IGF-1 LR3", lit "KISSPEPTIN-10", lit "L-CARNITINE",
   lit "LL-37", lit "PT-141"]

/-! ## Consumption-time kit override (src/app/app.py lines 218-221) -/

/-- `df.loc[mask, "total_mg_per_kit"] = df.loc[mask, "dose_mg_per_vial"] * 10`
with `mask = df["dose_mg_per_vial"].notna()`, applied to one record. -/
def applyKitOverride (r : StdRecord) : StdRecord :=
  match r.dose_mg_per_vial with
  | some d => { r with total_mg_per_kit := some (d.fmul (Frac.ofN 10)) }
  | none => r

/-! ## Vendor adapters (src/prepare_data.py, table-level loops) -/

/-- One extracted table cell (`pdfplumber` yields a string or `None`). -/
abbrev Cell := Option (List Char)

/-- Python `str(x)` on a cell value. -/
def pyStr (c : Cell) : List Char :=
  match c with
  | some s => s
  | none => lit "None"

/-- Python truthiness of a cell: `None` and `""` are falsy. -/
def cellTruthy (c : Cell) : Bool :=
  match c with
  | some s => !s.isEmpty
  | none => false

/-- The tuple of arguments an adapter passes to `standardize_row`. -/
structure RawTuple where
  vendor : List Char
  product_name : List Char
  spec_raw : List Char
  price_raw : List Char
  source_file : List Char
  deriving DecidableEq, Repr

/-- `parse_hyb` header search: first row whose first cell strips to `"Code"`. -/
def hybHeaderIdx : List (List Cell) → Option Nat
  | [] => none
  | r :: rest =>
    match r with
    | [] => (hybHeaderIdx rest).map (· + 1)
    | c :: _ =>
      if stripL (pyStr c) == lit "Code" then some 0
      else (hybHeaderIdx rest).map (· + 1)

/-- One data row of `parse_hyb` (lines 109-120): skip when the row is empty
or its first cell falsy; otherwise emit unconditionally, with missing cells
defaulting to `""` (name, spec) or `None` (price) before `str(...)`. -/
def hybRow (r : List Cell) : Option RawTuple :=
  match r with
  | [] => none
  | c0 :: _ =>
    if !cellTruthy c0 then none
    else
      some { vendor := lit "HYB"
             product_name := pyStr (r.getD 1 (some []))
             spec_raw := pyStr (r.getD 2 (some []))
             price_raw := pyStr (r.getD 3 none)
             source_file := lit "HYB-Price List - Overview.pdf" }

/-- `parse_hyb` on one extracted table. -/
def parse_hyb_table (table : List (List Cell)) : List RawTuple :=
  match hybHeaderIdx table with
  | none => []
  | some h => (table.drop (h + 1)).filterMap hybRow

/-- Forward-fill step of `parse_cn_full`: `if len(r) > 1 and r[1]:
current_name = r[1]`. -/
def cnUpdateName (cur : Cell) (r : List Cell) : Cell :=
  if cellTruthy (r.getD 1 none) then r.getD 1 none else cur

/-- One step of the `parse_cn_full` row loop (lines 149-167): forward-fill
the name, then emit only when both name and price are truthy. -/
def cnRow (cur : Cell) (r : List Cell) : Cell × Option RawTuple :=
  match r with
  | [] => (cur, none)
  | c0 :: _ =>
    if !cellTruthy c0 then (cur, none)
    else
      if cellTruthy (cnUpdateName cur r) && cellTruthy (r.getD 3 none) then
        (cnUpdateName cur r,
         some { vendor := lit "HXTNT"
                product_name := pyStr (cnUpdateName cur r)
                spec_raw := pyStr (r.getD 2 (some []))
                price_raw := pyStr (r.getD 3 none)
                source_file := lit "HXTNT-Lucy-price list.pdf" })
      else (cnUpdateName cur r, none)

/-- The `parse_cn_full` row loop with the carried-forward name. -/
def cnRows (cur : Cell) : List (List Cell) → List RawTuple
  | [] => []
  | r :: rest =>
    match cnRow cur r with
    | (cur2, some t) => t :: cnRows cur2 rest
    | (cur2, none) => cnRows cur2 rest

/-- `parse_cn_full` on one extracted table: header row detected by
`"Cat. No." in str(first[0])`, else all rows are data. -/
def parse_cn_table (table : List (List Cell)) : List RawTuple :=
  match table with
  | [] => []
  | first :: _ =>
    match first with
    | [] => cnRows none table
    | c :: _ =>
      if hasSub (pyStr c) (lit "Cat. No.") then cnRows none (table.drop 1)
      else cnRows none table

/-! ## Selection projector state (src/app/app.py lines 399-421) -/

/-- The refresh transition (lines 399-407):
`new = (prev_keys_set - visible_keys) | checked_keys`. -/
def refreshSelection (old visible checked : Finset String) : Finset String :=
  (old \ visible) ∪ checked

/-- Python `key.split("|")`. -/
def splitOnPipeAux (acc : List Char) : List Char → List (List Char)
  | [] => [acc.reverse]
  | '|' :: r => acc.reverse :: splitOnPipeAux [] r
  | c :: r => splitOnPipeAux (c :: acc) r

/-- Python `key.split("|")`. -/
def splitOnPipe (s : List Char) : List (List Char) := splitOnPipeAux [] s

/-- A decoded selection key `(Peptide, Dose, Total mg)`. -/
structure SelKey where
  pep : List Char
  dose : Option Frac
  total : Option Frac
  deriving DecidableEq, Repr

/-- Decoding of one stored row key (lines 411-421): the three-way unpacking
of `key.split("|")` raises (modelled as `none`) unless there are exactly
three components; each numeric component degrades to `None` on `ValueError`. -/
def decodeKey (k : List Char) : Option SelKey :=
  match splitOnPipe k with
  | [p, d, t] => some ⟨p, pyFloatOfStr d, pyFloatOfStr t⟩
  | _ => none

/-- The decode loop over all stored keys; an uncaught unpacking error aborts
the whole loop (`none`). -/
def decodeAll : List (List Char) → Option (List SelKey)
  | [] => some []
  | k :: ks =>
    match decodeKey k with
    | some s => (decodeAll ks).map (s :: ·)
    | none => none

/-! ## Ranking (src/app/app.py lines 292-308) -/

/-- The present `price_per_mg` values of one comparison row, one entry per
vendor column (absent entries are `NaN` cells). -/
def presentPpms (row : List (List Char × Option Frac)) : List Frac :=
  row.filterMap Prod.snd

/-- `DataFrame.rank(axis=1, method="min", ascending=True)` of a present
value: one plus the number of present values strictly below it. -/
def rankOf (row : List (List Char × Option Frac)) (v : Frac) : Nat :=
  (presentPpms row).countP (fun w => w.blt v) + 1

/-- `best_mask = ranks.eq(1)` for one cell (`NaN` ranks compare false). -/
def bestCell (row : List (List Char × Option Frac)) (x : Option Frac) : Bool :=
  match x with
  | some v => rankOf row v == 1
  | none => false

/-- `second_mask = ranks.eq(2)` for one cell. -/
def secondCell (row : List (List Char × Option Frac)) (x : Option Frac) : Bool :=
  match x with
  | some v => rankOf row v == 2
  | none => false

/-! ## Selected-rows price list (src/app/app.py lines 429-467) -/

/-- One grouped record (post-filter, post-override, grouped by
(canonical_peptide, dose_mg_per_vial, total_mg_per_kit, vendor) with
min-aggregated price; grouping keys are never `NaN`). -/
structure GRec where
  pep : List Char
  dose : Frac
  total : Frac
  vend : List Char
  price : Option Frac
  deriving DecidableEq, Repr

/-- The `merge` join condition: value equality on all three key columns
(a `NaN` selection component matches nothing). -/
def keyMatches (s : SelKey) (g : GRec) : Bool :=
  (g.pep == s.pep) &&
  (match s.dose with | some d => d.beqv g.dose | none => false) &&
  (match s.total with | some t => t.beqv g.total | none => false)

/-- Grouped records joined to one selected key. -/
def rowMatches (grouped : List GRec) (s : SelKey) : List GRec :=
  grouped.filter (keyMatches s)

/-- All rows of `merged` that carry a vendor (left-only rows have `NaN`
vendor and price and contribute nothing downstream). -/
def mergedRows (sel : List SelKey) (grouped : List GRec) : List GRec :=
  (sel.map (rowMatches grouped)).flatten

/-- Value equality of two pivot index pairs `(Peptide, Dose (mg/vial))`. -/
def pairEq (a b : List Char × Frac) : Bool :=
  (a.1 == b.1) && a.2.beqv b.2

/-- First-occurrence deduplication by a comparison function, fuelled so that
it is structurally recursive; `fuel ≥ l.length` always suffices since the
filtered tail is never longer than the tail. -/
def dedupByF (eq : α → α → Bool) : Nat → List α → List α
  | 0, _ => []
  | _ + 1, [] => []
  | n + 1, x :: xs => x :: dedupByF eq n (xs.filter (fun y => !eq y x))

/-- First-occurrence deduplication by a comparison function (index/column
construction of the pivot). -/
def dedupBy (eq : α → α → Bool) (l : List α) : List α := dedupByF eq l.length l

/-- The `(Peptide, Dose (mg/vial))` index of `price_pivot`. -/
def indexPairs (sel : List SelKey) (grouped : List GRec) : List (List Char × Frac) :=
  dedupBy pairEq ((mergedRows sel grouped).map (fun g => (g.pep, g.dose)))

/-- Minimum of a value list (`NaN`-skipping pandas `min`: empty is `NaN`). -/
def minF : List Frac → Option Frac
  | [] => none
  | x :: t =>
    match minF t with
    | some m => some (x.fmin m)
    | none => some x

/-- Sum of a value list (pandas `sum` with `skipna=True`, absent cells
contribute nothing). -/
def sumF (l : List Frac) : Frac := l.foldr Frac.fadd ⟨0, 1⟩

/-- One cell of `price_pivot` (aggfunc `min` over matching merged rows). -/
def cellVal (sel : List SelKey) (grouped : List GRec)
    (pr : List Char × Frac) (v : List Char) : Option Frac :=
  minF (((mergedRows sel grouped).filter
    (fun g => pairEq (g.pep, g.dose) pr && (g.vend == v))).filterMap GRec.price)

/-- `price_pivot.sum(axis=0, skipna=True)` for one vendor column. -/
def colTotal (sel : List SelKey) (grouped : List GRec) (v : List Char) : Frac :=
  sumF ((indexPairs sel grouped).map (fun pr => (cellVal sel grouped pr v).getD ⟨0, 1⟩))

/-- The vendor columns of the pivot. -/
def vendorCols (sel : List SelKey) (grouped : List GRec) : List (List Char) :=
  dedupBy (fun a b => a == b) ((mergedRows sel grouped).map GRec.vend)

/-- `has_any = price_pivot.notna().any(axis=0)` column filter. -/
def retainedVendors (sel : List SelKey) (grouped : List GRec) : List (List Char) :=
  (vendorCols sel grouped).filter
    (fun v => (indexPairs sel grouped).any (fun pr => (cellVal sel grouped pr v).isSome))

/-- `vendor_totals.sort_values()` order of the retained vendor columns. -/
def orderedVendors (sel : List SelKey) (grouped : List GRec) : List (List Char) :=
  List.insertionSort
    (fun a b => (colTotal sel grouped a).ble (colTotal sel grouped b) = true)
    (retainedVendors sel grouped)

/-- The price the pivot would show for one selected key and vendor
("the vendor's available price for that selected row"). -/
def rowVendorPrice (grouped : List GRec) (s : SelKey) (v : List Char) : Option Frac :=
  minF (((rowMatches grouped s).filter (fun g => g.vend == v)).filterMap GRec.price)

/-- Two selected keys that denote the same pivot index pair
`(Peptide, Dose (mg/vial))`. -/
def samePair (s1 s2 : SelKey) : Bool :=
  (s1.pep == s2.pep) &&
    match s1.dose, s2.dose with
    | some d1, some d2 => d1.beqv d2
    | none, none => true
    | _, _ => false

/-! ## Helper lemmas: fraction semantics -/

theorem Frac.val_nonneg {f : Frac} (h : 0 ≤ f.num) : 0 ≤ f.val := by
  unfold Frac.val
  have h1 : (0 : ℚ) ≤ (f.num : ℚ) := by exact_mod_cast h
  have h2 : (0 : ℚ) ≤ (f.den : ℚ) := by positivity
  exact div_nonneg h1 h2

theorem Frac.val_pos {f : Frac} (hn : 0 < f.num) (hd : 0 < f.den) : 0 < f.val := by
  unfold Frac.val
  have h1 : (0 : ℚ) < (f.num : ℚ) := by exact_mod_cast hn
  have h2 : (0 : ℚ) < (f.den : ℚ) := by exact_mod_cast hd
  exact div_pos h1 h2

theorem Frac.blt_iff {a b : Frac} (ha : 0 < a.den) (hb : 0 < b.den) :
    a.blt b = true ↔ a.val < b.val := by
  have ha1 : (0 : ℚ) < (a.den : ℚ) := by exact_mod_cast ha
  have hb1 : (0 : ℚ) < (b.den : ℚ) := by exact_mod_cast hb
  unfold Frac.blt Frac.val
  rw [decide_eq_true_eq, div_lt_div_iff₀ ha1 hb1]
  exact_mod_cast Iff.rfl

theorem Frac.ble_iff {a b : Frac} (ha : 0 < a.den) (hb : 0 < b.den) :
    a.ble b = true ↔ a.val ≤ b.val := by
  have ha1 : (0 : ℚ) < (a.den : ℚ) := by exact_mod_cast ha
  have hb1 : (0 : ℚ) < (b.den : ℚ) := by exact_mod_cast hb
  unfold Frac.ble Frac.val
  rw [decide_eq_true_eq, div_le_div_iff₀ ha1 hb1]
  exact_mod_cast Iff.rfl

theorem Frac.beqv_iff {a b : Frac} (ha : 0 < a.den) (hb : 0 < b.den) :
    a.beqv b = true ↔ a.val = b.val := by
  have ha1 : (0 : ℚ) ≠ (a.den : ℚ) := by positivity
  have hb1 : (0 : ℚ) ≠ (b.den : ℚ) := by positivity
  unfold Frac.beqv Frac.val
  rw [beq_iff_eq, div_eq_div_iff ha1.symm hb1.symm]
  exact_mod_cast Iff.rfl

theorem Frac.val_ofN (n : Nat) : (Frac.ofN n).val = (n : ℚ) := by
  simp [Frac.ofN, Frac.val]

theorem Frac.val_fmul (a b : Frac) : (a.fmul b).val = a.val * b.val := by
  unfold Frac.fmul Frac.val
  push_cast
  rw [div_mul_div_comm]

theorem Frac.val_fadd {a b : Frac} (ha : 0 < a.den) (hb : 0 < b.den) :
    (a.fadd b).val = a.val + b.val := by
  have ha1 : ((a.den : ℚ)) ≠ 0 := by positivity
  have hb1 : ((b.den : ℚ)) ≠ 0 := by positivity
  unfold Frac.fadd Frac.val
  push_cast
  rw [div_add_div _ _ ha1 hb1]
  ring_nf

theorem Frac.val_fdiv {a b : Frac} (hb : b.num ≠ 0) :
    (a.fdiv b).val = a.val / b.val := by
  obtain ⟨an, ad⟩ := a
  obtain ⟨bn, bd⟩ := b
  simp only [Frac.fdiv, Frac.val] at *
  rcases hb.lt_or_lt with h | h
  · have hs : bn.sign = -1 := Int.sign_eq_neg_one_of_neg h
    obtain ⟨m, hm, rfl⟩ : ∃ m : Nat, 0 < m ∧ bn = -(m : Int) :=
      ⟨bn.natAbs, by omega, by omega⟩
    have hab : (-(m : Int)).natAbs = m := by omega
    rw [hs, hab]
    have hm1 : ((m : ℚ)) ≠ 0 := by positivity
    push_cast
    field_simp
    ring_nf
  · have hs : bn.sign = 1 := Int.sign_eq_one_of_pos h
    obtain ⟨m, hm, rfl⟩ : ∃ m : Nat, 0 < m ∧ bn = (m : Int) :=
      ⟨bn.natAbs, by omega, by omega⟩
    have hab : ((m : Int)).natAbs = m := by omega
    rw [hs, hab]
    have hm1 : ((m : ℚ)) ≠ 0 := by positivity
    push_cast
    field_simp

theorem Frac.isZero_iff (f : Frac) : f.isZero = true ↔ f.num = 0 := by
  simp [Frac.isZero]

theorem Frac.fmin_den_pos {a b : Frac} (ha : 0 < a.den) (hb : 0 < b.den) :
    0 < (a.fmin b).den := by
  unfold Frac.fmin
  split <;> assumption

theorem Frac.fmin_val {a b : Frac} (ha : 0 < a.den) (hb : 0 < b.den) :
    (a.fmin b).val = min a.val b.val := by
  unfold Frac.fmin
  split
  · rename_i hle
    exact (min_eq_left ((Frac.ble_iff ha hb).mp hle)).symm
  · rename_i hle
    have hlt : b.val ≤ a.val := by
      by_contra hc
      push_neg at hc
      exact hle ((Frac.ble_iff ha hb).mpr hc.le)
    exact (min_eq_right hlt).symm

/-! ## Helper lemmas: parser invariants -/

theorem decValue_den_pos (ip fp : List Char) : 0 < (decValue ip fp).den := by
  unfold decValue
  positivity

theorem decValue_num_nonneg (ip fp : List Char) : 0 ≤ (decValue ip fp).num := by
  unfold decValue
  positivity

theorem scale10_den_pos {f : Frac} (neg : Bool) (e : Nat) (h : 0 < f.den) :
    0 < (f.scale10 neg e).den := by
  unfold Frac.scale10
  split
  · positivity
  · exact h

theorem scale10_num_nonneg {f : Frac} (neg : Bool) (e : Nat) (h : 0 ≤ f.num) :
    0 ≤ (f.scale10 neg e).num := by
  unfold Frac.scale10
  split
  · exact h
  · positivity

theorem parseExpTail_den_pos {m : Frac} {r : List Char} {q : Frac}
    (hm : 0 < m.den) (h : parseExpTail m r = some q) : 0 < q.den := by
  simp only [parseExpTail] at h
  split at h
  · exact Option.noConfusion h
  · simp only [Option.some.injEq] at h
    exact h ▸ scale10_den_pos _ _ hm

theorem parseExpTail_num_nonneg {m : Frac} {r : List Char} {q : Frac}
    (hm : 0 ≤ m.num) (h : parseExpTail m r = some q) : 0 ≤ q.num := by
  simp only [parseExpTail] at h
  split at h
  · exact Option.noConfusion h
  · simp only [Option.some.injEq] at h
    exact h ▸ scale10_num_nonneg _ _ hm

theorem parseExpPart_den_pos {m : Frac} {l : List Char} {q : Frac}
    (hm : 0 < m.den) (h : parseExpPart m l = some q) : 0 < q.den := by
  unfold parseExpPart at h
  split at h
  · simp only [Option.some.injEq] at h
    exact h ▸ hm
  · exact parseExpTail_den_pos hm h
  · exact parseExpTail_den_pos hm h
  · exact Option.noConfusion h

theorem parseExpPart_num_nonneg {m : Frac} {l : List Char} {q : Frac}
    (hm : 0 ≤ m.num) (h : parseExpPart m l = some q) : 0 ≤ q.num := by
  unfold parseExpPart at h
  split at h
  · simp only [Option.some.injEq] at h
    exact h ▸ hm
  · exact parseExpTail_num_nonneg hm h
  · exact parseExpTail_num_nonneg hm h
  · exact Option.noConfusion h

theorem pyFloatCore_den_pos {s : List Char} {q : Frac}
    (h : pyFloatCore s = some q) : 0 < q.den := by
  simp only [pyFloatCore] at h
  split at h
  · split at h
    · exact Option.noConfusion h
    · rcases Option.map_eq_some'.mp h with ⟨m, hm, hq⟩
      have := parseExpPart_den_pos (decValue_den_pos _ _) hm
      subst hq
      split <;> simpa [Frac.fneg]
  · split at h
    · exact Option.noConfusion h
    · rcases Option.map_eq_some'.mp h with ⟨m, hm, hq⟩
      have := parseExpPart_den_pos (decValue_den_pos _ _) hm
      subst hq
      split <;> simpa [Frac.fneg]

theorem parseSignL_fst {s : List Char} (hs : '-' ∉ s) : (parseSignL s).1 = false := by
  cases s with
  | nil => rfl
  | cons c r =>
    have hc : ¬c = '-' := fun h => hs (h ▸ List.mem_cons_self c r)
    by_cases hp : c = '+' <;> simp [parseSignL, hc, hp]

theorem pyFloatCore_num_nonneg {s : List Char} {q : Frac} (hs : '-' ∉ s)
    (h : pyFloatCore s = some q) : 0 ≤ q.num := by
  have hfst : (parseSignL s).1 = false := parseSignL_fst hs
  simp only [pyFloatCore, hfst] at h
  split at h
  · split at h
    · exact Option.noConfusion h
    · rcases Option.map_eq_some'.mp h with ⟨m, hm, hq⟩
      simp only [Bool.false_eq_true, if_false] at hq
      subst hq
      exact parseExpPart_num_nonneg (decValue_num_nonneg _ _) hm
  · split at h
    · exact Option.noConfusion h
    · rcases Option.map_eq_some'.mp h with ⟨m, hm, hq⟩
      simp only [Bool.false_eq_true, if_false] at hq
      subst hq
      exact parseExpPart_num_nonneg (decValue_num_nonneg _ _) hm

theorem mem_stripL {a : Char} {s : List Char} (h : a ∈ stripL s) : a ∈ s := by
  unfold stripL at h
  rw [List.mem_reverse] at h
  have h2 := (List.dropWhile_sublist _).mem h
  rw [List.mem_reverse] at h2
  exact (List.dropWhile_sublist _).mem h2

theorem pyFloatOfStr_den_pos {s : List Char} {q : Frac}
    (h : pyFloatOfStr s = some q) : 0 < q.den :=
  pyFloatCore_den_pos h

theorem pyFloatOfStr_num_nonneg {s : List Char} {q : Frac} (hs : '-' ∉ s)
    (h : pyFloatOfStr s = some q) : 0 ≤ q.num :=
  pyFloatCore_num_nonneg (fun hm => hs (mem_stripL hm)) h

theorem to_float_price_den_pos {x : List Char} {q : Frac}
    (h : to_float_price x = some q) : 0 < q.den := by
  simp only [to_float_price] at h
  split at h
  · exact Option.noConfusion h
  · exact pyFloatOfStr_den_pos h

theorem mgAt_facts {s : List Char} {v : Frac} (h : mgAt s = some v) :
    0 ≤ v.num ∧ 0 < v.den := by
  simp only [mgAt] at h
  repeat' split at h
  all_goals
    first
      | (simp only [Option.some.injEq] at h
         exact h ▸ ⟨decValue_num_nonneg _ _, decValue_den_pos _ _⟩)
      | exact Option.noConfusion h

theorem mgScan_facts : ∀ {s : List Char} {v : Frac}, mgScan s = some v →
    0 ≤ v.num ∧ 0 < v.den := by
  intro s
  induction s with
  | nil => intro v h; exact Option.noConfusion h
  | cons c rest ih =>
    intro v h
    simp only [mgScan] at h
    split at h
    · rename_i w hw
      simp only [Option.some.injEq] at h
      exact h ▸ mgAt_facts hw
    · exact ih h

theorem extract_mg_facts {t : List Char} {v : Frac} (h : extract_mg t = some v) :
    0 ≤ v.num ∧ 0 < v.den := by
  simp only [extract_mg] at h
  split at h
  · exact Option.noConfusion h
  · exact mgScan_facts h

theorem pyOrQ_facts {a b : Option Frac} {d : Frac}
    (ha : ∀ y, a = some y → 0 ≤ y.num ∧ 0 < y.den)
    (hb : ∀ y, b = some y → 0 ≤ y.num ∧ 0 < y.den)
    (h : pyOrQ a b = some d) : 0 ≤ d.num ∧ 0 < d.den := by
  unfold pyOrQ at h
  split at h
  · rename_i x
    split at h
    · exact hb d h
    · simp only [Option.some.injEq] at h
      exact h ▸ ha x rfl
  · exact hb d h

theorem pyOrTen_pos (a : Option Nat) : 0 < pyOrTen a := by
  unfold pyOrTen
  split
  · split <;> omega
  · omega

theorem std_price_eq (v n s p f : List Char) :
    (standardize_row v n s p f).price_usd = to_float_price p := rfl

theorem std_dose_eq (v n s p f : List Char) :
    (standardize_row v n s p f).dose_mg_per_vial =
      pyOrQ (extract_mg s) (extract_mg n) := rfl

theorem std_vials_eq (v n s p f : List Char) :
    (standardize_row v n s p f).vials_per_kit = pyOrTen (extract_vials s) := rfl

theorem std_total_eq (v n s p f : List Char) :
    (standardize_row v n s p f).total_mg_per_kit =
      match pyOrQ (extract_mg s) (extract_mg n) with
      | some d =>
        if d.isZero then none
        else some (d.fmul (Frac.ofN (pyOrTen (extract_vials s))))
      | none => none := rfl

theorem std_ppm_eq (v n s p f : List Char) :
    (standardize_row v n s p f).price_per_mg =
      match to_float_price p, (standardize_row v n s p f).total_mg_per_kit with
      | some pr, some t => if t.isZero then none else some (pr.fdiv t)
      | _, _ => none := rfl

theorem std_total_facts (v n s p f : List Char) {t : Frac}
    (h : (standardize_row v n s p f).total_mg_per_kit = some t) :
    0 < t.num ∧ 0 < t.den ∧
    ∃ d, (standardize_row v n s p f).dose_mg_per_vial = some d ∧ d.num ≠ 0 ∧
      t = d.fmul (Frac.ofN (pyOrTen (extract_vials s))) := by
  rw [std_total_eq] at h
  split at h
  · rename_i d hd
    split at h
    · exact Option.noConfusion h
    · rename_i hd0
      simp only [Option.some.injEq] at h
      have hdn : 0 ≤ d.num ∧ 0 < d.den :=
        pyOrQ_facts (fun y hy => extract_mg_facts hy)
          (fun y hy => extract_mg_facts hy) hd
      have hdz : d.num ≠ 0 := by
        intro hz
        exact hd0 ((Frac.isZero_iff d).mpr hz)
      have hv := pyOrTen_pos (extract_vials s)
      refine ⟨?_, ?_, d, std_dose_eq v n s p f ▸ hd, hdz, h.symm⟩
      · rw [← h]
        simp only [Frac.fmul, Frac.ofN]
        have : 0 < d.num := lt_of_le_of_ne hdn.1 (Ne.symm hdz)
        positivity
      · rw [← h]
        simp only [Frac.fmul, Frac.ofN]
        have := hdn.2
        omega
  · exact Option.noConfusion h

theorem std_ppm_facts (v n s p f : List Char) {q : Frac}
    (h : (standardize_row v n s p f).price_per_mg = some q) :
    ∃ pr t, to_float_price p = some pr ∧
      (standardize_row v n s p f).total_mg_per_kit = some t ∧
      t.isZero = false ∧ q = pr.fdiv t := by
  rw [std_ppm_eq] at h
  split at h
  · rename_i pr t hpr ht
    split at h
    · exact Option.noConfusion h
    · rename_i htz
      simp only [Option.some.injEq] at h
      exact ⟨pr, t, hpr, ht, Bool.not_eq_true _ ▸ eq_false_of_ne_true htz, h.symm⟩
  · rename_i hcase
    exact Option.noConfusion h

/-! ## Claim theorems -/

/-- C1: one refresh of the Selection Projector with previous state `old`,
visible keys `visible` and checked keys `checked ⊆ visible` yields exactly
`(old − visible) ∪ (checked among visible)`; a selected key outside the
visible set survives, and a visible unchecked key is removed. -/
theorem selection_refresh_rule (old visible checked : Finset String)
    (h : checked ⊆ visible) :
    refreshSelection old visible checked = (old \ visible) ∪ (checked ∩ visible) ∧
    (∀ k ∈ old, k ∉ visible → k ∈ refreshSelection old visible checked) ∧
    (∀ k ∈ visible, k ∉ checked → k ∉ refreshSelection old visible checked) := by
  refine ⟨?_, ?_, ?_⟩
  · rw [Finset.inter_eq_left.mpr h]
    rfl
  · intro k hk hv
    exact Finset.mem_union_left _ (Finset.mem_sdiff.mpr ⟨hk, hv⟩)
  · intro k hv hc hmem
    rcases Finset.mem_union.mp hmem with hm | hm
    · exact (Finset.mem_sdiff.mp hm).2 hv
    · exact hc hm

/-- Witness for C1 at the spec's concrete examples. -/
theorem selection_refresh_rule_witness :
    (∅ : Finset String) ⊆ {"Y|10|100"} ∧
    refreshSelection {"X|5|50"} {"Y|10|100"} ∅ =
      (({"X|5|50"} : Finset String) \ {"Y|10|100"}) ∪
        ((∅ : Finset String) ∩ {"Y|10|100"}) ∧
    refreshSelection {"X|5|50"} {"Y|10|100"} ∅ = {"X|5|50"} ∧
    refreshSelection {"X|5|50"} {"X|5|50"} ∅ = ∅ :=
  ⟨by decide, (selection_refresh_rule {"X|5|50"} {"Y|10|100"} ∅ (by decide)).1,
   by decide, by decide⟩

/-- C3: after the consumption-time override, every record with a known dose
has `total_mg_per_kit = dose * 10` (whatever unit count was detected at
ingestion), and a record with unknown dose keeps its prior total. -/
theorem kit_override_total (r : StdRecord) :
    (∀ d, r.dose_mg_per_vial = some d →
      (applyKitOverride r).total_mg_per_kit = some (d.fmul (Frac.ofN 10)) ∧
      (d.fmul (Frac.ofN 10)).val = d.val * 10) ∧
    (r.dose_mg_per_vial = none →
      (applyKitOverride r).total_mg_per_kit = r.total_mg_per_kit) := by
  constructor
  · intro d hd
    constructor
    · simp [applyKitOverride, hd]
    · rw [Frac.val_fmul, Frac.val_ofN]
      norm_num
  · intro h
    simp [applyKitOverride, h]

/-- Witness for C3: a record whose detected unit count is 20, overridden
to dose times ten. -/
theorem kit_override_total_witness :
    (standardize_row (lit "V") (lit "X") (lit "5mg x 20vials") (lit "41")
        (lit "f")).dose_mg_per_vial = some ⟨5, 1⟩ ∧
    (standardize_row (lit "V") (lit "X") (lit "5mg x 20vials") (lit "41")
        (lit "f")).vials_per_kit = 20 ∧
    ((applyKitOverride (standardize_row (lit "V") (lit "X") (lit "5mg x 20vials")
        (lit "41") (lit "f"))).total_mg_per_kit =
      some (Frac.fmul ⟨5, 1⟩ (Frac.ofN 10)) ∧
     (Frac.fmul ⟨5, 1⟩ (Frac.ofN 10)).val = (⟨5, 1⟩ : Frac).val * 10) :=
  ⟨by decide, by decide, (kit_override_total _).1 ⟨5, 1⟩ (by decide)⟩

/-- C6 (amended): the price parser is total — every input yields a number or
the missing value, never an exception — and the returned value is
non-negative whenever the input contains no minus sign; an input with a
minus sign (for example `"-5"`) parses to a negative number. -/
theorem to_float_price_amended (s : List Char) :
    (to_float_price s = none ∨ ∃ q, to_float_price s = some q) ∧
    (∀ q, to_float_price s = some q → '-' ∉ s → 0 ≤ q.val) := by
  constructor
  · cases h : to_float_price s with
    | none => exact Or.inl rfl
    | some q => exact Or.inr ⟨q, rfl⟩
  · intro q h hm
    apply Frac.val_nonneg
    simp only [to_float_price] at h
    split at h
    · exact Option.noConfusion h
    · refine pyFloatOfStr_num_nonneg ?_ h
      intro hmem
      exact hm (mem_stripL (List.mem_of_mem_filter hmem))

/-- Witness for C6 on a well-formed price string (value `1234.50`). -/
theorem to_float_price_amended_witness :
    to_float_price (lit "$1,234.50") = some ⟨123450, 100⟩ ∧
    Frac.beqv ⟨123450, 100⟩ ⟨2469, 2⟩ = true ∧
    0 ≤ (⟨123450, 100⟩ : Frac).val :=
  ⟨by decide, by decide,
   (to_float_price_amended (lit "$1,234.50")).2 ⟨123450, 100⟩ (by decide) (by decide)⟩

/-- Counterexample for C6 as stated: `"-5"` is parseable and the parser
returns the negative value `-5`, not a non-negative number or the missing
value. -/
theorem to_float_price_negative_cex :
    to_float_price (lit "-5") = some ⟨-5, 1⟩ ∧ (⟨-5, 1⟩ : Frac).val < 0 :=
  ⟨by decide, by norm_num [Frac.val]⟩

/-- C4: `price_per_mg` is present iff both the price and the total quantity
are present with a positive total, and whenever present it was computed by
dividing the price by that non-zero total. -/
theorem ppm_denominator_safe (vendor name spec price_str src : List Char) :
    ((standardize_row vendor name spec price_str src).price_per_mg.isSome = true ↔
      ((standardize_row vendor name spec price_str src).price_usd.isSome = true ∧
       ∃ t, (standardize_row vendor name spec price_str src).total_mg_per_kit =
          some t ∧ 0 < t.val)) ∧
    (∀ q, (standardize_row vendor name spec price_str src).price_per_mg = some q →
      ∃ p t, (standardize_row vendor name spec price_str src).price_usd = some p ∧
        (standardize_row vendor name spec price_str src).total_mg_per_kit = some t ∧
        0 < t.val ∧ q.val = p.val / t.val) := by
  constructor
  · constructor
    · intro h
      rcases Option.isSome_iff_exists.mp h with ⟨q, hq⟩
      rcases std_ppm_facts vendor name spec price_str src hq with
        ⟨pr, t, hpr, ht, htz, hq2⟩
      rcases std_total_facts vendor name spec price_str src ht with ⟨hn, hd, _⟩
      refine ⟨?_, t, ht, Frac.val_pos hn hd⟩
      rw [std_price_eq, hpr]
      rfl
    · rintro ⟨hp, t, ht, htv⟩
      rcases Option.isSome_iff_exists.mp hp with ⟨pr, hpr⟩
      rw [std_ppm_eq]
      rw [std_price_eq] at hpr
      rw [hpr, ht]
      rcases std_total_facts vendor name spec price_str src ht with ⟨hn, _, _⟩
      have htz : t.isZero = false := by
        rw [Bool.eq_false_iff]
        intro hz
        exact absurd ((Frac.isZero_iff t).mp hz) (by omega)
      simp [htz]
  · intro q hq
    rcases std_ppm_facts vendor name spec price_str src hq with
      ⟨pr, t, hpr, ht, htz, hq2⟩
    rcases std_total_facts vendor name spec price_str src ht with ⟨hn, hd, _⟩
    have htn : t.num ≠ 0 := by
      intro hz
      rw [(Frac.isZero_iff t).mpr hz] at htz
      exact Bool.true_eq_false ▸ htz
    refine ⟨pr, t, by rw [std_price_eq, hpr], ht, Frac.val_pos hn hd, ?_⟩
    rw [hq2]
    exact Frac.val_fdiv htn

/-- Witness for C4 on the spec's end-to-end example record (price 41,
total 50, price-per-mg 0.82). -/
theorem ppm_denominator_safe_witness :
    (standardize_row (lit "CN") (lit "BPC 157") (lit "5mg*10vials") (lit "41")
        (lit "f")).price_per_mg = some ⟨41, 50⟩ ∧
    ∃ p t, (standardize_row (lit "CN") (lit "BPC 157") (lit "5mg*10vials")
        (lit "41") (lit "f")).price_usd = some p ∧
      (standardize_row (lit "CN") (lit "BPC 157") (lit "5mg*10vials") (lit "41")
        (lit "f")).total_mg_per_kit = some t ∧
      0 < t.val ∧ (⟨41, 50⟩ : Frac).val = p.val / t.val :=
  ⟨by decide,
   (ppm_denominator_safe (lit "CN") (lit "BPC 157") (lit "5mg*10vials") (lit "41")
      (lit "f")).2 ⟨41, 50⟩ (by decide)⟩

/-- C10 (amended): the kit override rewrites only `total_mg_per_kit`; every
other field, in particular `price_per_mg`, keeps its ingestion-time value.
Consequently, for a standardized record with a present non-zero price and a
detected `vials_per_kit ≠ 10`, the post-override `price_per_mg` no longer
equals `price_usd / total_mg_per_kit`; for a present zero price the two
sides are both zero and coincide. -/
theorem override_frame_amended :
    (∀ r : StdRecord,
      (applyKitOverride r).vendor = r.vendor ∧
      (applyKitOverride r).product_name = r.product_name ∧
      (applyKitOverride r).spec_raw = r.spec_raw ∧
      (applyKitOverride r).price_usd = r.price_usd ∧
      (applyKitOverride r).dose_mg_per_vial = r.dose_mg_per_vial ∧
      (applyKitOverride r).vials_per_kit = r.vials_per_kit ∧
      (applyKitOverride r).price_per_mg = r.price_per_mg ∧
      (applyKitOverride r).source_file = r.source_file) ∧
    (∀ vendor name spec price_str src : List Char, ∀ p q t : Frac,
      (standardize_row vendor name spec price_str src).price_usd = some p →
      p.isZero = false →
      (standardize_row vendor name spec price_str src).vials_per_kit ≠ 10 →
      (standardize_row vendor name spec price_str src).price_per_mg = some q →
      (applyKitOverride (standardize_row vendor name spec price_str src)
        ).total_mg_per_kit = some t →
      q.val ≠ p.val / t.val) := by
  constructor
  · intro r
    cases hd : r.dose_mg_per_vial <;>
      simp [applyKitOverride, hd]
  · intro vendor name spec price_str src p q t hp hpz hv hq ht
    rcases std_ppm_facts vendor name spec price_str src hq with
      ⟨pr, t0, hpr, ht0, ht0z, hq2⟩
    have hp' : to_float_price price_str = some p := by
      rw [← std_price_eq vendor name spec price_str src]
      exact hp
    have hpp : pr = p := by
      rw [hp'] at hpr
      exact (Option.some.injEq _ _ ▸ hpr).symm
    rw [hpp] at hq2
    rcases std_total_facts vendor name spec price_str src ht0 with
      ⟨ht0n, ht0d, d, hd, hdz, ht0e⟩
    have ht' : (applyKitOverride (standardize_row vendor name spec price_str src)
        ).total_mg_per_kit = some (d.fmul (Frac.ofN 10)) := by
      simp [applyKitOverride, hd]
    have htt : t = d.fmul (Frac.ofN 10) := by
      rw [ht'] at ht
      exact (Option.some.injEq _ _ ▸ ht).symm
    subst htt
    -- facts about the dose and the price
    have hdf : 0 ≤ d.num ∧ 0 < d.den :=
      pyOrQ_facts (fun y hy => extract_mg_facts hy)
        (fun y hy => extract_mg_facts hy) (std_dose_eq vendor name spec price_str src ▸ hd)
    have hdvpos : 0 < d.val := Frac.val_pos (lt_of_le_of_ne hdf.1 (Ne.symm hdz)) hdf.2
    have hpden : 0 < p.den := to_float_price_den_pos hp'
    have hpval : p.val ≠ 0 := by
      have hnum : p.num ≠ 0 := by
        intro hz
        rw [(Frac.isZero_iff p).mpr hz] at hpz
        exact Bool.true_eq_false ▸ hpz
      unfold Frac.val
      have h1 : ((p.num : ℚ)) ≠ 0 := Int.cast_ne_zero.mpr hnum
      have h2 : ((p.den : ℚ)) ≠ 0 := by positivity
      exact div_ne_zero h1 h2
    have ht0num : t0.num ≠ 0 := by omega
    -- the two denominators as values
    have hVpos := pyOrTen_pos (extract_vials spec)
    set V : Nat := pyOrTen (extract_vials spec) with hV
    have hVne : ((V : ℚ)) ≠ (10 : ℚ) := by
      rw [std_vials_eq] at hv
      exact_mod_cast hv
  -- compute both sides
    have hq3 : q.val = p.val / (d.val * (V : ℚ)) := by
      rw [hq2, Frac.val_fdiv ht0num, ht0e, Frac.val_fmul, Frac.val_ofN]
    have htv : (d.fmul (Frac.ofN 10)).val = d.val * 10 := by
      rw [Frac.val_fmul, Frac.val_ofN]
      norm_num
    rw [hq3, htv]
    intro hcontra
    have hdV : d.val * (V : ℚ) ≠ 0 := by positivity
    have hd10 : d.val * (10 : ℚ) ≠ 0 := by positivity
    rw [div_eq_div_iff hdV hd10] at hcontra
    have h2 : d.val * 10 = d.val * (V : ℚ) := mul_left_cancel₀ hpval hcontra
    have h3 : (10 : ℚ) = (V : ℚ) := mul_left_cancel₀ (ne_of_gt hdvpos) h2
    exact hVne h3.symm

/-- Counterexample for C10's final consequence as stated: with a present
price of zero and detected `vials_per_kit = 20 ≠ 10`, the post-override
`price_per_mg` (zero) still equals `price_usd / total_mg_per_kit` (zero). -/
theorem override_frame_cex :
    (standardize_row (lit "V") (lit "X") (lit "5mg x 20vials") (lit "0")
        (lit "f")).vials_per_kit = 20 ∧
    (standardize_row (lit "V") (lit "X") (lit "5mg x 20vials") (lit "0")
        (lit "f")).price_usd = some ⟨0, 1⟩ ∧
    (standardize_row (lit "V") (lit "X") (lit "5mg x 20vials") (lit "0")
        (lit "f")).price_per_mg = some ⟨0, 100⟩ ∧
    (applyKitOverride (standardize_row (lit "V") (lit "X") (lit "5mg x 20vials")
        (lit "0") (lit "f"))).total_mg_per_kit = some ⟨50, 1⟩ ∧
    (⟨0, 100⟩ : Frac).val = (⟨0, 1⟩ : Frac).val / (⟨50, 1⟩ : Frac).val :=
  ⟨by decide, by decide, by decide, by decide, by norm_num [Frac.val]⟩

/-- Witness for C10 on a record with price 41, dose 5 mg, detected 20 vials:
after the override the stored price-per-mg (0.41 per mg) differs from
price divided by the overridden total (0.82 per mg). -/
theorem override_frame_amended_witness :
    (standardize_row (lit "V") (lit "X") (lit "5mg x 20vials") (lit "41")
        (lit "f")).price_per_mg = some ⟨41, 100⟩ ∧
    (applyKitOverride (standardize_row (lit "V") (lit "X") (lit "5mg x 20vials")
        (lit "41") (lit "f"))).total_mg_per_kit = some (Frac.fmul ⟨5, 1⟩ (Frac.ofN 10)) ∧
    (⟨41, 100⟩ : Frac).val ≠ (⟨41, 1⟩ : Frac).val / (Frac.fmul ⟨5, 1⟩ (Frac.ofN 10)).val :=
  ⟨by decide, by decide,
   (override_frame_amended).2 (lit "V") (lit "X") (lit "5mg x 20vials") (lit "41")
     (lit "f") ⟨41, 1⟩ ⟨41, 100⟩ (Frac.fmul ⟨5, 1⟩ (Frac.ofN 10))
     (by decide) (by decide) (by decide) (by decide) (by decide)⟩

set_option maxRecDepth 10000 in
/-- Every literal an alias rule can write resolves to itself. -/
theorem canon_literals_fixed : ∀ l ∈ canonLiterals, resolveName l = l := by decide

/-- Every rule output is one of the canonical literals. -/
theorem rules_out_covered : ∀ r ∈ baseRules ++ aliasRules, r.out ∈ canonLiterals := by
  decide

/-- C5 (amended): the resolver is a single deterministic function of the
product name; every name whose resolution produced an alias literal (in
particular every name on which some alias rule fired) is a fixed point of a
second resolution, but resolution is not idempotent on every product name:
cleanup can create a fresh dose token (for example `"5-mg"`). -/
theorem resolver_literal_idempotent (x : List Char)
    (h : resolveName x ∈ canonLiterals) :
    resolveName (resolveName x) = resolveName x :=
  canon_literals_fixed (resolveName x) h

set_option maxRecDepth 4000 in
/-- Witness for C5: `"bpc-157 5mg"` resolves to the literal `"BPC 157"`,
which re-resolves to itself. -/
theorem resolver_literal_idempotent_witness :
    resolveName (lit "bpc-157 5mg") ∈ canonLiterals ∧
    resolveName (resolveName (lit "bpc-157 5mg")) = resolveName (lit "bpc-157 5mg") :=
  ⟨by decide, resolver_literal_idempotent (lit "bpc-157 5mg") (by decide)⟩

set_option maxRecDepth 4000 in
/-- Counterexample for C5 as stated: resolving `"5-mg"` yields `"5 MG"`
(hyphen removal creates a fresh dose token), and resolving that output
yields the empty string, so the resolver is not idempotent on its own
output for every product name. -/
theorem resolver_not_idempotent_cex :
    resolveName (lit "5-mg") = lit "5 MG" ∧
    resolveName (resolveName (lit "5-mg")) = lit "" ∧
    (lit "" == lit "5 MG") = false := by
  refine ⟨by decide, by decide, by decide⟩

theorem beqv_refl (v : Frac) : v.beqv v = true := by
  simp [Frac.beqv]

theorem countP_congr_mem {p q : α → Bool} :
    ∀ l : List α, (∀ a ∈ l, p a = q a) → l.countP p = l.countP q := by
  intro l
  induction l with
  | nil => intro _; rfl
  | cons a t ih =>
    intro h
    have ha := h a (List.mem_cons_self a t)
    have ht := ih (fun b hb => h b (List.mem_cons_of_mem a hb))
    simp only [List.countP_cons, ha, ht]

theorem countP_disjoint {p q : α → Bool} :
    ∀ l : List α, (∀ a ∈ l, ¬(p a = true ∧ q a = true)) →
    l.countP (fun a => p a || q a) = l.countP p + l.countP q := by
  intro l
  induction l with
  | nil => intro _; rfl
  | cons a t ih =>
    intro h
    have ha := h a (List.mem_cons_self a t)
    have ht := ih (fun b hb => h b (List.mem_cons_of_mem a hb))
    simp only [List.countP_cons, ht]
    cases hp : p a <;> cases hq : q a <;> simp_all <;> omega

theorem sorted_countP_findIdx {v : Frac} (hv : 0 < v.den) :
    ∀ s : List Frac, (∀ x ∈ s, 0 < x.den) →
    s.Pairwise (fun a b => a.ble b = true) →
    (∃ w ∈ s, w.beqv v = true) →
    s.countP (fun w => w.blt v) = s.findIdx (fun w => w.beqv v) := by
  intro s
  induction s with
  | nil =>
    intro _ _ hex
    rcases hex with ⟨w, hw, _⟩
    exact absurd hw (List.not_mem_nil w)
  | cons a t ih =>
    intro hok hpair hex
    have hada : 0 < a.den := hok a (List.mem_cons_self a t)
    have hokt : ∀ x ∈ t, 0 < x.den := fun x hx => hok x (List.mem_cons_of_mem a hx)
    have hrel := (List.pairwise_cons.mp hpair).1
    have hpt := (List.pairwise_cons.mp hpair).2
    by_cases hav : a.beqv v = true
    · have haval : a.val = v.val := (Frac.beqv_iff hada hv).mp hav
      rw [List.findIdx_cons, hav]
      simp only [cond_true]
      rw [List.countP_cons]
      have hblt : a.blt v = false := by
        rw [Bool.eq_false_iff]
        intro hb
        exact absurd ((Frac.blt_iff hada hv).mp hb) (by rw [haval]; exact lt_irrefl _)
      have hzero : t.countP (fun w => w.blt v) = 0 := by
        rw [List.countP_eq_zero]
        intro w hw hbw
        have hwd := hokt w hw
        have h1 : a.val ≤ w.val := (Frac.ble_iff hada hwd).mp (hrel w hw)
        have h2 : w.val < v.val := (Frac.blt_iff hwd hv).mp hbw
        rw [haval] at h1
        exact absurd h2 (not_lt.mpr h1)
      rw [hzero, hblt]
      rfl
    · have havb : a.beqv v = false := Bool.eq_false_iff.mpr hav
      rw [List.findIdx_cons, havb]
      simp only [cond_false]
      rcases hex with ⟨w, hw, hwv⟩
      have hwt : w ∈ t := by
        rcases List.mem_cons.mp hw with h | h
        · exact absurd (h ▸ hwv) hav
        · exact h
      have hwd := hokt w hwt
      have hwval : w.val = v.val := (Frac.beqv_iff hwd hv).mp hwv
      have h1 : a.val ≤ w.val := (Frac.ble_iff hada hwd).mp (hrel w hwt)
      have h2 : a.val ≠ v.val := fun he => hav ((Frac.beqv_iff hada hv).mpr he)
      have h3 : a.val < v.val := lt_of_le_of_ne (hwval ▸ h1) h2
      rw [List.countP_cons]
      have hblt : a.blt v = true := (Frac.blt_iff hada hv).mpr h3
      rw [hblt, ih hokt hpt ⟨w, hwt, hwv⟩]
      simp

/-- C2: per-row vendor ranks follow competition ranking — a present value's
rank is one plus the number of strictly smaller present values, which equals
one plus its first position in any ascending reordering (so tied values
share the lowest tied rank), and the next distinct value resumes after the
whole tie group; the "best" marker is carried exactly by rank-1 cells and
the "second-best" marker exactly by rank-2 cells. -/
theorem rank_competition_spec (row : List (List Char × Option Frac))
    (hok : ∀ x ∈ presentPpms row, 0 < x.den) :
    (∀ v ∈ presentPpms row, ∀ w ∈ presentPpms row, v.beqv w = true →
      rankOf row v = rankOf row w) ∧
    (∀ v ∈ presentPpms row, ∀ s : List Frac,
      s.Perm (presentPpms row) → s.Pairwise (fun a b => a.ble b = true) →
      rankOf row v = s.findIdx (fun w => w.beqv v) + 1) ∧
    (∀ v ∈ presentPpms row, ∀ w ∈ presentPpms row, v.blt w = true →
      (∀ u ∈ presentPpms row, ¬(v.blt u = true ∧ u.blt w = true)) →
      rankOf row w = rankOf row v + (presentPpms row).countP (fun u => u.beqv v)) ∧
    (∀ x : Option Frac, bestCell row x = true ↔
      ∃ v, x = some v ∧ rankOf row v = 1) ∧
    (∀ x : Option Frac, secondCell row x = true ↔
      ∃ v, x = some v ∧ rankOf row v = 2) := by
  refine ⟨?_, ?_, ?_, ?_, ?_⟩
  · intro v hv w hw hvw
    have hvd := hok v hv
    have hwd := hok w hw
    have hval : v.val = w.val := (Frac.beqv_iff hvd hwd).mp hvw
    unfold rankOf
    congr 1
    apply countP_congr_mem
    intro u hu
    have hud := hok u hu
    by_cases h : u.val < v.val
    · rw [(Frac.blt_iff hud hvd).mpr h, (Frac.blt_iff hud hwd).mpr (hval ▸ h)]
    · rw [Bool.eq_false_iff.mpr (fun hb => h ((Frac.blt_iff hud hvd).mp hb)),
        Bool.eq_false_iff.mpr (fun hb => h (hval ▸ (Frac.blt_iff hud hwd).mp hb))]
  · intro v hv s hperm hpair
    have hvd := hok v hv
    have hoks : ∀ x ∈ s, 0 < x.den := fun x hx => hok x (hperm.mem_iff.mp hx)
    have hvs : v ∈ s := hperm.mem_iff.mpr hv
    unfold rankOf
    rw [← hperm.countP_eq]
    rw [sorted_countP_findIdx hvd s hoks hpair ⟨v, hvs, beqv_refl v⟩]
  · intro v hv w hw hvw hbetween
    have hvd := hok v hv
    have hwd := hok w hw
    unfold rankOf
    have hsplit : (presentPpms row).countP (fun u => u.blt w) =
        (presentPpms row).countP (fun u => u.blt v) +
        (presentPpms row).countP (fun u => u.beqv v) := by
      rw [← countP_disjoint (presentPpms row) ?disj]
      case disj =>
        intro u hu hconj
        have hud := hok u hu
        have h1 := (Frac.blt_iff hud hvd).mp hconj.1
        have h2 := (Frac.beqv_iff hud hvd).mp hconj.2
        exact absurd h2 (ne_of_lt h1)
      apply countP_congr_mem
      intro u hu
      have hud := hok u hu
      by_cases h : u.val < w.val
      · rw [(Frac.blt_iff hud hwd).mpr h]
        have hle : u.val ≤ v.val := by
          by_contra hc
          push_neg at hc
          exact hbetween u hu ⟨(Frac.blt_iff hvd hud).mpr hc, (Frac.blt_iff hud hwd).mpr h⟩
        rcases lt_or_eq_of_le hle with h2 | h2
        · rw [(Frac.blt_iff hud hvd).mpr h2]
          simp
        · rw [(Frac.beqv_iff hud hvd).mpr h2]
          simp
      · have h1 : u.blt w = false :=
          Bool.eq_false_iff.mpr (fun hb => h ((Frac.blt_iff hud hwd).mp hb))
        have hvltw : v.val < w.val := (Frac.blt_iff hvd hwd).mp hvw
        have h2 : u.blt v = false := by
          rw [Bool.eq_false_iff]
          intro hb
          exact h (lt_trans ((Frac.blt_iff hud hvd).mp hb) hvltw)
        have h3 : u.beqv v = false := by
          rw [Bool.eq_false_iff]
          intro hb
          exact h (((Frac.beqv_iff hud hvd).mp hb) ▸ hvltw)
        rw [h1, h2, h3]
        simp
    omega
  · intro x
    cases x with
    | none => simp [bestCell]
    | some v =>
      simp only [bestCell, beq_iff_eq, Option.some.injEq]
      constructor
      · intro h; exact ⟨v, rfl, h⟩
      · rintro ⟨w, rfl, hw⟩; exact hw
  · intro x
    cases x with
    | none => simp [secondCell]
    | some v =>
      simp only [secondCell, beq_iff_eq, Option.some.injEq]
      constructor
      · intro h; exact ⟨v, rfl, h⟩
      · rintro ⟨w, rfl, hw⟩; exact hw

/-- Witness for C2 on the spec's two examples: values {A: 0.40, B: 0.40,
C: 0.82} rank 1, 1, 3 with A and B best; values {A: 0.40, B: 0.82} rank
1 and 2 with B second-best. -/
theorem rank_competition_spec_witness :
    rankOf [(lit "A", some ⟨2, 5⟩), (lit "B", some ⟨2, 5⟩),
      (lit "C", some ⟨82, 100⟩)] ⟨2, 5⟩ = 1 ∧
    rankOf [(lit "A", some ⟨2, 5⟩), (lit "B", some ⟨2, 5⟩),
      (lit "C", some ⟨82, 100⟩)] ⟨82, 100⟩ = 3 ∧
    bestCell [(lit "A", some ⟨2, 5⟩), (lit "B", some ⟨2, 5⟩),
      (lit "C", some ⟨82, 100⟩)] (some ⟨2, 5⟩) = true ∧
    rankOf [(lit "A", some ⟨2, 5⟩), (lit "B", some ⟨82, 100⟩)] ⟨82, 100⟩ = 2 ∧
    secondCell [(lit "A", some ⟨2, 5⟩), (lit "B", some ⟨82, 100⟩)]
      (some ⟨82, 100⟩) = true ∧
    rankOf [(lit "A", some ⟨2, 5⟩), (lit "B", some ⟨2, 5⟩),
        (lit "C", some ⟨82, 100⟩)] ⟨82, 100⟩ =
      rankOf [(lit "A", some ⟨2, 5⟩), (lit "B", some ⟨2, 5⟩),
        (lit "C", some ⟨82, 100⟩)] ⟨2, 5⟩ +
      (presentPpms [(lit "A", some ⟨2, 5⟩), (lit "B", some ⟨2, 5⟩),
        (lit "C", some ⟨82, 100⟩)]).countP (fun u => u.beqv ⟨2, 5⟩) :=
  ⟨by decide, by decide, by decide, by decide, by decide,
   (rank_competition_spec
      [(lit "A", some ⟨2, 5⟩), (lit "B", some ⟨2, 5⟩), (lit "C", some ⟨82, 100⟩)]
      (by decide)).2.2.1 ⟨2, 5⟩ (by decide) ⟨82, 100⟩ (by decide) (by decide)
      (by decide)⟩

theorem pyStr_ne_nil {c : Cell} (h : cellTruthy c = true) :
    (pyStr c).isEmpty = false := by
  cases c with
  | none => exact absurd h (by simp [cellTruthy])
  | some s =>
    simp only [cellTruthy, Bool.not_eq_true'] at h
    simpa [pyStr] using h

theorem cnRow_guard {cur : Cell} {r : List Cell} {cur2 : Cell} {t : RawTuple}
    (h : cnRow cur r = (cur2, some t)) :
    t.product_name.isEmpty = false ∧ t.price_raw.isEmpty = false := by
  unfold cnRow at h
  repeat' split at h
  all_goals
    first
      | (injection h with h1 h2; exact Option.noConfusion h2)
      | (rename_i hguard
         injection h with h1 h2
         injection h2 with h3
         subst h3
         simp only [Bool.and_eq_true] at hguard
         exact ⟨pyStr_ne_nil hguard.1, pyStr_ne_nil hguard.2⟩)

theorem cnRows_guard : ∀ (rows : List (List Cell)) (cur : Cell),
    (cnRows cur rows).all
      (fun t => !t.product_name.isEmpty && !t.price_raw.isEmpty) = true := by
  intro rows
  induction rows with
  | nil => intro cur; rfl
  | cons r rest ih =>
    intro cur
    rw [cnRows]
    rcases hcn : cnRow cur r with ⟨cur2, topt⟩
    cases topt with
    | none => simpa using ih cur2
    | some t =>
      rcases cnRow_guard hcn with ⟨h1, h2⟩
      simp only [List.all_cons, h1, h2, Bool.not_false, Bool.and_self,
        Bool.true_and]
      exact ih cur2

/-- C7 (amended): `parse_cn_full` (and the other forward-fill adapters built
on the same guard) emits a row only when both the (forward-filled) product
name and the price cell are present and non-empty — but `parse_hyb` does
not: it emits whenever a row's first cell is non-empty, even with an empty
product name and a missing price. -/
theorem cn_adapter_guard (table : List (List Cell)) :
    (parse_cn_table table).all
      (fun t => !t.product_name.isEmpty && !t.price_raw.isEmpty) = true := by
  unfold parse_cn_table
  split
  · rfl
  · split
    · exact cnRows_guard _ _
    · split
      · exact cnRows_guard _ _
      · exact cnRows_guard _ _

/-- Counterexample for C7 as stated: on a grid whose data row has only a
code cell, `parse_hyb` emits a RawTuple with an empty `product_name` (and
the string `"None"` as its price). -/
theorem hyb_emits_empty_cex :
    parse_hyb_table [[some (lit "Code")], [some (lit "X1")]] =
      [{ vendor := lit "HYB", product_name := [], spec_raw := [],
         price_raw := lit "None",
         source_file := lit "HYB-Price List - Overview.pdf" }] ∧
    (([] : List Char)).isEmpty = true :=
  ⟨by decide, by decide⟩

theorem len3_decodeKey {k : List Char} (h : (splitOnPipe k).length = 3) :
    ∃ s, decodeKey k = some s := by
  unfold decodeKey
  rcases hsp : splitOnPipe k with _ | ⟨a, _ | ⟨b, _ | ⟨c, _ | d⟩⟩⟩ <;>
    rw [hsp] at h <;> simp_all

/-- C8 (amended): when every stored key splits into exactly three
components, the decode loop never aborts — each numeric component that
fails to parse degrades to the missing value while the remaining keys are
still processed — but a key with a different component count raises out of
the loop and aborts the whole selection decode. -/
theorem decode_keys_amended (ks : List (List Char))
    (h : ∀ k ∈ ks, (splitOnPipe k).length = 3) :
    decodeAll ks = some (ks.filterMap decodeKey) ∧
    (ks.filterMap decodeKey).length = ks.length := by
  induction ks with
  | nil => exact ⟨rfl, rfl⟩
  | cons k t ih =>
    rcases len3_decodeKey (h k (List.mem_cons_self k t)) with ⟨s, hs⟩
    rcases ih (fun k2 hk2 => h k2 (List.mem_cons_of_mem k hk2)) with ⟨h1, h2⟩
    constructor
    · rw [decodeAll, hs, h1, List.filterMap_cons, hs]
      rfl
    · rw [List.filterMap_cons, hs]
      simpa using h2

/-- Witness for C8: two well-formed keys whose numeric components fail to
parse in one position each; both keys are decoded, the bad components
degrade to the missing value. -/
theorem decode_keys_amended_witness :
    (∀ k ∈ [lit "A|x|50", lit "B|5|zz"], (splitOnPipe k).length = 3) ∧
    (decodeAll [lit "A|x|50", lit "B|5|zz"] =
        some ([lit "A|x|50", lit "B|5|zz"].filterMap decodeKey) ∧
      ([lit "A|x|50", lit "B|5|zz"].filterMap decodeKey).length =
        [lit "A|x|50", lit "B|5|zz"].length) ∧
    decodeKey (lit "A|x|50") = some ⟨lit "A", none, some ⟨50, 1⟩⟩ ∧
    decodeKey (lit "B|5|zz") = some ⟨lit "B", some ⟨5, 1⟩, none⟩ :=
  ⟨by decide, decode_keys_amended _ (by decide), by decide, by decide⟩

/-- Counterexample for C8 as stated: the malformed key `"A|B"` (two
components) aborts the whole decode — the following well-formed key
`"X|5|50"` is never processed. -/
theorem decode_abort_cex :
    decodeAll [lit "A|B", lit "X|5|50"] = none ∧
    decodeKey (lit "X|5|50") = some ⟨lit "X", some ⟨5, 1⟩, some ⟨50, 1⟩⟩ :=
  ⟨by decide, by decide⟩

theorem beqv_symm {a b : Frac} (h : a.beqv b = true) : b.beqv a = true := by
  simp only [Frac.beqv, beq_iff_eq] at *
  exact h.symm

theorem beqv_trans {a b c : Frac} (ha : 0 < a.den) (hb : 0 < b.den)
    (hc : 0 < c.den) (h1 : a.beqv b = true) (h2 : b.beqv c = true) :
    a.beqv c = true := by
  rw [Frac.beqv_iff ha hb] at h1
  rw [Frac.beqv_iff hb hc] at h2
  rw [Frac.beqv_iff ha hc]
  exact h1.trans h2

theorem pairEq_refl (a : List Char × Frac) : pairEq a a = true := by
  simp [pairEq, beqv_refl]

theorem pairEq_symm {a b : List Char × Frac} (h : pairEq a b = true) :
    pairEq b a = true := by
  simp only [pairEq, Bool.and_eq_true, beq_iff_eq] at *
  exact ⟨h.1.symm, beqv_symm h.2⟩

theorem pairEq_trans {a b c : List Char × Frac} (ha : 0 < a.2.den)
    (hb : 0 < b.2.den) (hc : 0 < c.2.den)
    (h1 : pairEq a b = true) (h2 : pairEq b c = true) : pairEq a c = true := by
  simp only [pairEq, Bool.and_eq_true, beq_iff_eq] at *
  exact ⟨h1.1.trans h2.1, beqv_trans ha hb hc h1.2 h2.2⟩

theorem keyMatches_facts {s : SelKey} {g : GRec} (h : keyMatches s g = true) :
    g.pep = s.pep ∧ (∃ d, s.dose = some d ∧ d.beqv g.dose = true) ∧
    (∃ t, s.total = some t ∧ t.beqv g.total = true) := by
  unfold keyMatches at h
  simp only [Bool.and_eq_true, beq_iff_eq] at h
  obtain ⟨⟨h1, h2⟩, h3⟩ := h
  refine ⟨h1, ?_, ?_⟩
  · rcases hd : s.dose with _ | d
    · rw [hd] at h2
      exact Bool.noConfusion h2
    · rw [hd] at h2
      exact ⟨d, rfl, h2⟩
  · rcases ht : s.total with _ | t
    · rw [ht] at h3
      exact Bool.noConfusion h3
    · rw [ht] at h3
      exact ⟨t, rfl, h3⟩

theorem mem_rowMatches {grouped : List GRec} {s : SelKey} {g : GRec}
    (h : g ∈ rowMatches grouped s) : g ∈ grouped ∧ keyMatches s g = true := by
  unfold rowMatches at h
  exact ⟨List.mem_of_mem_filter h, List.of_mem_filter h⟩

theorem mergedRows_cons (s : SelKey) (rest : List SelKey) (grouped : List GRec) :
    mergedRows (s :: rest) grouped =
      rowMatches grouped s ++ mergedRows rest grouped := by
  simp [mergedRows]

theorem mem_mergedRows {sel : List SelKey} {grouped : List GRec} {g : GRec} :
    g ∈ mergedRows sel grouped ↔ ∃ s ∈ sel, g ∈ rowMatches grouped s := by
  simp only [mergedRows, List.mem_flatten, List.mem_map]
  constructor
  · rintro ⟨l, ⟨s, hs, rfl⟩, hg⟩
    exact ⟨s, hs, hg⟩
  · rintro ⟨s, hs, hg⟩
    exact ⟨rowMatches grouped s, ⟨s, hs, rfl⟩, hg⟩

theorem dedupByF_nil (eq : α → α → Bool) :
    ∀ m, dedupByF eq m ([] : List α) = [] := by
  intro m
  cases m <;> rfl

theorem dedupByF_fuel (eq : α → α → Bool) :
    ∀ (n m : Nat) (l : List α), l.length ≤ n → l.length ≤ m →
      dedupByF eq n l = dedupByF eq m l := by
  intro n
  induction n with
  | zero =>
    intro m l hn hm
    rw [List.length_eq_zero.mp (Nat.le_zero.mp hn), dedupByF_nil, dedupByF_nil]
  | succ n ih =>
    intro m l hn hm
    cases l with
    | nil => rw [dedupByF_nil, dedupByF_nil]
    | cons x xs =>
      cases m with
      | zero => exact absurd hm (by simp)
      | succ m =>
        rw [dedupByF, dedupByF]
        have hfl : (xs.filter (fun y => !eq y x)).length ≤ xs.length :=
          List.length_filter_le _ _
        have hxn : xs.length ≤ n := by simpa using hn
        have hxm : xs.length ≤ m := by simpa using hm
        rw [ih m _ (Nat.le_trans hfl hxn) (Nat.le_trans hfl hxm)]

theorem dedupBy_cons (eq : α → α → Bool) (x : α) (xs : List α) :
    dedupBy eq (x :: xs) = x :: dedupBy eq (xs.filter (fun y => !eq y x)) := by
  unfold dedupBy
  rw [List.length_cons, dedupByF]
  rw [dedupByF_fuel eq xs.length (xs.filter (fun y => !eq y x)).length _
    (List.length_filter_le _ _) (Nat.le_refl _)]

theorem mem_dedupBy_sub (eq : α → α → Bool) :
    ∀ (n : Nat) (l : List α) (a : α), a ∈ dedupByF eq n l → a ∈ l := by
  intro n
  induction n with
  | zero => intro l a ha; exact absurd ha (List.not_mem_nil a)
  | succ n ih =>
    intro l a ha
    cases l with
    | nil => exact absurd ha (List.not_mem_nil a)
    | cons x xs =>
      rw [dedupByF] at ha
      rcases List.mem_cons.mp ha with h | h
      · exact h ▸ List.mem_cons_self x xs
      · exact List.mem_cons_of_mem x (List.mem_of_mem_filter (ih _ a h))

theorem mem_dedupBy (eq : α → α → Bool) {l : List α} {a : α}
    (h : a ∈ dedupBy eq l) : a ∈ l :=
  mem_dedupBy_sub eq l.length l a h

theorem dedupBy_cover_fuel (eq : α → α → Bool) (href : ∀ a, eq a a = true) :
    ∀ (n : Nat) (l : List α), l.length ≤ n → ∀ x ∈ l,
      ∃ y ∈ dedupByF eq n l, eq x y = true := by
  intro n
  induction n with
  | zero =>
    intro l hl x hx
    rw [List.length_eq_zero.mp (Nat.le_zero.mp hl)] at hx
    exact absurd hx (List.not_mem_nil x)
  | succ n ih =>
    intro l hl x hx
    cases l with
    | nil => exact absurd hx (List.not_mem_nil x)
    | cons h t =>
      rw [dedupByF]
      rcases List.mem_cons.mp hx with hxe | hxt
      · exact ⟨h, List.mem_cons_self _ _, hxe ▸ href x⟩
      · by_cases hxh : eq x h = true
        · exact ⟨h, List.mem_cons_self _ _, hxh⟩
        · have hxf : x ∈ t.filter (fun y => !eq y h) :=
            List.mem_filter.mpr ⟨hxt, by simp [hxh]⟩
          have hlen : (t.filter (fun y => !eq y h)).length ≤ n :=
            Nat.le_trans (List.length_filter_le _ _)
              (Nat.lt_succ_iff.mp (Nat.lt_of_lt_of_le
                (Nat.lt_succ_of_le (Nat.le_refl _)) hl))
          rcases ih _ hlen x hxf with ⟨y, hy, hxy⟩
          exact ⟨y, List.mem_cons_of_mem _ hy, hxy⟩

theorem dedupBy_cover (eq : α → α → Bool) (href : ∀ a, eq a a = true)
    (l : List α) (x : α) (hx : x ∈ l) :
    ∃ y ∈ dedupBy eq l, eq x y = true :=
  dedupBy_cover_fuel eq href l.length l (Nat.le_refl _) x hx

theorem dedupBy_block {eq : α → α → Bool} {a0 : α} {A B : List α}
    (hA : ∀ y ∈ A, eq y a0 = true) (hB : ∀ y ∈ B, eq y a0 = false) :
    dedupBy eq (a0 :: (A ++ B)) = a0 :: dedupBy eq B := by
  rw [dedupBy_cons, List.filter_append]
  have h1 : A.filter (fun y => !eq y a0) = [] := by
    rw [List.filter_eq_nil_iff]
    intro a ha
    simp [hA a ha]
  have h2 : B.filter (fun y => !eq y a0) = B := by
    rw [List.filter_eq_self]
    intro a ha
    simp [hB a ha]
  rw [h1, h2, List.nil_append]

theorem minF_isSome {l : List Frac} (h : l ≠ []) : (minF l).isSome = true := by
  cases l with
  | nil => exact absurd rfl h
  | cons x t =>
    rw [minF]
    split <;> rfl

theorem minF_den_pos : ∀ {l : List Frac}, (∀ x ∈ l, 0 < x.den) →
    ∀ {m}, minF l = some m → 0 < m.den := by
  intro l
  induction l with
  | nil => intro _ m h; exact Option.noConfusion h
  | cons x t ih =>
    intro hok m h
    rw [minF] at h
    split at h
    · rename_i w hw
      simp only [Option.some.injEq] at h
      subst h
      exact Frac.fmin_den_pos (hok x (List.mem_cons_self x t))
        (ih (fun y hy => hok y (List.mem_cons_of_mem x hy)) hw)
    · simp only [Option.some.injEq] at h
      subst h
      exact hok x (List.mem_cons_self x t)

theorem fadd_zero_left (y : Frac) : Frac.fadd ⟨0, 1⟩ y = y := by
  cases y with
  | mk n d =>
    simp only [Frac.fadd]
    congr 1 <;> omega

theorem sumF_cons (x : Frac) (l : List Frac) :
    sumF (x :: l) = x.fadd (sumF l) := rfl

theorem sumF_getD_filterMap : ∀ l : List (Option Frac),
    sumF (l.map (fun o => o.getD ⟨0, 1⟩)) = sumF (l.filterMap id) := by
  intro l
  induction l with
  | nil => rfl
  | cons o t ih =>
    cases o with
    | none =>
      simp only [List.map_cons, List.filterMap_cons, Option.getD_none, id]
      rw [sumF_cons, ih, fadd_zero_left]
    | some a =>
      simp only [List.map_cons, List.filterMap_cons, Option.getD_some, id]
      rw [sumF_cons, sumF_cons, ih]

theorem sumF_den_pos : ∀ {l : List Frac}, (∀ x ∈ l, 0 < x.den) →
    0 < (sumF l).den := by
  intro l
  induction l with
  | nil => intro _; exact Nat.one_pos
  | cons x t ih =>
    intro hok
    rw [sumF_cons]
    have h1 := hok x (List.mem_cons_self x t)
    have h2 := ih (fun y hy => hok y (List.mem_cons_of_mem x hy))
    simp only [Frac.fadd]
    positivity

theorem matches_pairEq_same {grouped : List GRec} {s : SelKey} {g g' : GRec}
    (hgok : ∀ g2 ∈ grouped, 0 < g2.dose.den)
    (hsok : ∀ d, s.dose = some d → 0 < d.den)
    (hg : g ∈ rowMatches grouped s) (hg' : g' ∈ rowMatches grouped s) :
    pairEq (g.pep, g.dose) (g'.pep, g'.dose) = true := by
  obtain ⟨hgm, hgk⟩ := mem_rowMatches hg
  obtain ⟨hgm', hgk'⟩ := mem_rowMatches hg'
  obtain ⟨hp, ⟨d, hd, hdb⟩, _⟩ := keyMatches_facts hgk
  obtain ⟨hp', ⟨d', hd', hdb'⟩, _⟩ := keyMatches_facts hgk'
  have hdd : d = d' := by
    rw [hd] at hd'
    exact Option.some.injEq _ _ ▸ hd'
  subst hdd
  simp only [pairEq, Bool.and_eq_true, beq_iff_eq]
  refine ⟨hp.trans hp'.symm, ?_⟩
  exact beqv_trans (hgok g hgm) (hsok d hd) (hgok g' hgm') (beqv_symm hdb) hdb'

theorem matches_pairEq_diff {grouped : List GRec} {s s' : SelKey} {g g' : GRec}
    (hgok : ∀ g2 ∈ grouped, 0 < g2.dose.den)
    (hsok : ∀ d, s.dose = some d → 0 < d.den)
    (hsok' : ∀ d, s'.dose = some d → 0 < d.den)
    (hss : samePair s s' = false)
    (hg : g ∈ rowMatches grouped s) (hg' : g' ∈ rowMatches grouped s') :
    pairEq (g.pep, g.dose) (g'.pep, g'.dose) = false := by
  rw [Bool.eq_false_iff]
  intro hpe
  obtain ⟨hgm, hgk⟩ := mem_rowMatches hg
  obtain ⟨hgm', hgk'⟩ := mem_rowMatches hg'
  obtain ⟨hp, ⟨d, hd, hdb⟩, _⟩ := keyMatches_facts hgk
  obtain ⟨hp', ⟨d', hd', hdb'⟩, _⟩ := keyMatches_facts hgk'
  simp only [pairEq, Bool.and_eq_true, beq_iff_eq] at hpe
  have hdg := hgok g hgm
  have hdg' := hgok g' hgm'
  have hdden := hsok d hd
  have hdden' := hsok' d' hd'
  have hdd : d.beqv d' = true :=
    beqv_trans hdden hdg hdden' hdb
      (beqv_trans hdg hdg' hdden' hpe.2 (beqv_symm hdb'))
  have : samePair s s' = true := by
    simp only [samePair, Bool.and_eq_true, beq_iff_eq, hd, hd']
    exact ⟨hp.symm.trans (hpe.1.trans hp'), hdd⟩
  rw [this] at hss
  exact Bool.noConfusion hss

theorem colTotal_congr_merged {sel1 sel2 : List SelKey} {grouped : List GRec}
    (h : mergedRows sel1 grouped = mergedRows sel2 grouped) (v : List Char) :
    colTotal sel1 grouped v = colTotal sel2 grouped v := by
  unfold colTotal indexPairs cellVal
  rw [h]

theorem beqv_comm (a b : Frac) : a.beqv b = b.beqv a := by
  unfold Frac.beqv
  by_cases h : a.num * b.den = b.num * a.den
  · rw [beq_iff_eq.mpr h, beq_iff_eq.mpr h.symm]
  · rw [beq_eq_false_iff_ne.mpr h, beq_eq_false_iff_ne.mpr (fun hh => h hh.symm)]

theorem samePair_comm (s1 s2 : SelKey) : samePair s1 s2 = samePair s2 s1 := by
  unfold samePair
  have hpep : (s1.pep == s2.pep) = (s2.pep == s1.pep) := by
    by_cases h : s1.pep = s2.pep
    · rw [beq_iff_eq.mpr h, beq_iff_eq.mpr h.symm]
    · rw [beq_eq_false_iff_ne.mpr h, beq_eq_false_iff_ne.mpr (fun hh => h hh.symm)]
  rw [hpep]
  rcases s1.dose with _ | d1 <;> rcases s2.dose with _ | d2 <;> simp [beqv_comm]

theorem colTotal_eq_sum_core (grouped : List GRec)
    (hgok : ∀ g ∈ grouped, 0 < g.dose.den) :
    ∀ sel : List SelKey, (∀ s ∈ sel, ∀ d, s.dose = some d → 0 < d.den) →
    sel.Pairwise (fun s1 s2 => samePair s1 s2 = false) →
    ∀ v, colTotal sel grouped v =
      sumF (sel.map (fun s => (rowVendorPrice grouped s v).getD ⟨0, 1⟩)) := by
  intro sel
  induction sel with
  | nil =>
    intro _ _ v
    unfold colTotal indexPairs mergedRows
    simp only [List.map_nil, List.flatten_nil]
    rfl
  | cons s rest ih =>
    intro hselok hnd v
    have hselokt : ∀ s2 ∈ rest, ∀ d, s2.dose = some d → 0 < d.den :=
      fun s2 hs2 => hselok s2 (List.mem_cons_of_mem s hs2)
    have hseloks : ∀ d, s.dose = some d → 0 < d.den :=
      hselok s (List.mem_cons_self s rest)
    have hhead := (List.pairwise_cons.mp hnd).1
    have htail := (List.pairwise_cons.mp hnd).2
    have hmr := mergedRows_cons s rest grouped
    cases hb : rowMatches grouped s with
    | nil =>
      have hms : mergedRows (s :: rest) grouped = mergedRows rest grouped := by
        rw [hmr, hb, List.nil_append]
      rw [colTotal_congr_merged hms v, ih hselokt htail v, List.map_cons]
      have hrv : rowVendorPrice grouped s v = none := by
        unfold rowVendorPrice
        rw [hb]
        rfl
      rw [hrv]
      simp only [Option.getD_none]
      rw [sumF_cons, fadd_zero_left]
    | cons g0 bt =>
      have hg0mem : g0 ∈ rowMatches grouped s := hb ▸ List.mem_cons_self g0 bt
      have hblock : ∀ g ∈ rowMatches grouped s,
          pairEq (g.pep, g.dose) (g0.pep, g0.dose) = true :=
        fun g hgm => matches_pairEq_same hgok hseloks hgm hg0mem
      have hrest : ∀ g' ∈ mergedRows rest grouped,
          pairEq (g'.pep, g'.dose) (g0.pep, g0.dose) = false := by
        intro g' hg'
        obtain ⟨s', hs', hgm'⟩ := mem_mergedRows.mp hg'
        have hss : samePair s' s = false := by
          rw [samePair_comm]
          exact hhead s' hs'
        exact matches_pairEq_diff hgok (hselokt s' hs') hseloks hss hgm' hg0mem
      have hidx : indexPairs (s :: rest) grouped =
          (g0.pep, g0.dose) :: indexPairs rest grouped := by
        unfold indexPairs
        rw [hmr, hb, List.map_append, List.map_cons, List.cons_append]
        apply dedupBy_block
        · intro y hy
          obtain ⟨g, hgbt, rfl⟩ := List.mem_map.mp hy
          exact hblock g (hb ▸ List.mem_cons_of_mem g0 hgbt)
        · intro y hy
          obtain ⟨g', hg', rfl⟩ := List.mem_map.mp hy
          exact hrest g' hg'
      have hcell0 : cellVal (s :: rest) grouped (g0.pep, g0.dose) v =
          rowVendorPrice grouped s v := by
        unfold cellVal rowVendorPrice
        rw [hmr, List.filter_append]
        have h1 : (rowMatches grouped s).filter
            (fun g => pairEq (g.pep, g.dose) (g0.pep, g0.dose) && (g.vend == v)) =
            (rowMatches grouped s).filter (fun g => g.vend == v) := by
          apply List.filter_congr
          intro g hgm
          rw [hblock g hgm]
          simp
        have h2 : (mergedRows rest grouped).filter
            (fun g => pairEq (g.pep, g.dose) (g0.pep, g0.dose) && (g.vend == v)) =
            [] := by
          rw [List.filter_eq_nil_iff]
          intro g' hg'
          rw [hrest g' hg']
          simp
        rw [h1, h2, List.append_nil]
      have hcellr : ∀ pr ∈ indexPairs rest grouped,
          cellVal (s :: rest) grouped pr v = cellVal rest grouped pr v := by
        intro pr hpr
        have hprm : pr ∈ (mergedRows rest grouped).map (fun g => (g.pep, g.dose)) :=
          mem_dedupBy _ hpr
        obtain ⟨g', hg', rfl⟩ := List.mem_map.mp hprm
        unfold cellVal
        rw [hmr, List.filter_append]
        have h2 : (rowMatches grouped s).filter
            (fun g => pairEq (g.pep, g.dose) (g'.pep, g'.dose) && (g.vend == v)) =
            [] := by
          rw [List.filter_eq_nil_iff]
          intro g hgm
          obtain ⟨s', hs', hgm'⟩ := mem_mergedRows.mp hg'
          have hss : samePair s s' = false := hhead s' hs'
          rw [matches_pairEq_diff hgok hseloks (hselokt s' hs') hss hgm hgm']
          simp
        rw [h2, List.nil_append]
      unfold colTotal
      rw [hidx, List.map_cons, hcell0, sumF_cons, List.map_cons, sumF_cons]
      congr 1
      rw [List.map_congr_left (fun pr hpr => by rw [hcellr pr hpr])]
      exact ih hselokt htail v

theorem cellVal_den_pos {sel : List SelKey} {grouped : List GRec}
    {pr : List Char × Frac} {v : List Char}
    (hgokp : ∀ g ∈ grouped, ∀ p, g.price = some p → 0 < p.den)
    {m : Frac} (h : cellVal sel grouped pr v = some m) : 0 < m.den := by
  unfold cellVal at h
  refine minF_den_pos ?_ h
  intro q hq
  obtain ⟨g, hg, hgp⟩ := List.mem_filterMap.mp hq
  have hgm : g ∈ mergedRows sel grouped := List.mem_of_mem_filter hg
  obtain ⟨s, hs, hgr⟩ := mem_mergedRows.mp hgm
  exact hgokp g (mem_rowMatches hgr).1 q hgp

/-- C9 (amended): for a selection whose decoded keys denote pairwise
distinct pivot index pairs (Peptide, Dose) — as every reachable selection
does, since the kit override fixes the total at ten times the dose — the
price-list projection retains a vendor column iff that vendor has at least
one price among the selected rows, each retained vendor's TOTAL is the sum
of its available prices across the selected rows (rows without a price for
that vendor are ignored), and the vendor columns are ordered ascending by
total.  Two selected keys sharing (Peptide, Dose) are min-collapsed into
one pivot row instead of being summed. -/
theorem projection_amended (sel : List SelKey) (grouped : List GRec)
    (hne : sel ≠ [])
    (hgok : ∀ g ∈ grouped, 0 < g.dose.den ∧ 0 < (g.price.getD ⟨0, 1⟩).den)
    (hselok : ∀ s ∈ sel, 0 < (s.dose.getD ⟨0, 1⟩).den)
    (hnd : sel.Pairwise (fun s1 s2 => samePair s1 s2 = false)) :
    (∀ v, v ∈ retainedVendors sel grouped ↔
      ∃ s ∈ sel, ∃ g ∈ rowMatches grouped s, g.vend = v ∧ g.price.isSome = true) ∧
    (∀ v, colTotal sel grouped v =
      sumF (sel.filterMap (fun s => rowVendorPrice grouped s v))) ∧
    (orderedVendors sel grouped).Perm (retainedVendors sel grouped) ∧
    (orderedVendors sel grouped).Pairwise
      (fun a b => (colTotal sel grouped a).val ≤ (colTotal sel grouped b).val) := by
  have hgok1 : ∀ g ∈ grouped, 0 < g.dose.den := fun g hg => (hgok g hg).1
  have hgokp : ∀ g ∈ grouped, ∀ p, g.price = some p → 0 < p.den := by
    intro g hg p hp
    have h2 := (hgok g hg).2
    rw [hp] at h2
    exact h2
  have hselok1 : ∀ s ∈ sel, ∀ d, s.dose = some d → 0 < d.den := by
    intro s hs d hd
    have h2 := hselok s hs
    rw [hd] at h2
    exact h2
  have hctden : ∀ u, 0 < (colTotal sel grouped u).den := by
    intro u
    unfold colTotal
    apply sumF_den_pos
    intro x hx
    obtain ⟨pr, hpr, rfl⟩ := List.mem_map.mp hx
    cases hc : cellVal sel grouped pr u with
    | none => exact Nat.one_pos
    | some m => exact cellVal_den_pos hgokp hc
  refine ⟨?_, ?_, ?_, ?_⟩
  · intro v
    unfold retainedVendors
    rw [List.mem_filter]
    constructor
    · rintro ⟨hvc, hany⟩
      rw [List.any_eq_true] at hany
      obtain ⟨pr, hpr, hcell⟩ := hany
      unfold cellVal at hcell
      obtain ⟨m, hm⟩ := Option.isSome_iff_exists.mp hcell
      have hne2 : (((mergedRows sel grouped).filter
          (fun g => pairEq (g.pep, g.dose) pr && (g.vend == v))).filterMap
            GRec.price) ≠ [] := by
        intro hnil
        rw [hnil] at hm
        exact Option.noConfusion hm
      obtain ⟨q, hq⟩ := List.exists_mem_of_ne_nil _ hne2
      obtain ⟨g, hgf, hgp⟩ := List.mem_filterMap.mp hq
      have hcond := List.of_mem_filter hgf
      simp only [Bool.and_eq_true, beq_iff_eq] at hcond
      have hgm := List.mem_of_mem_filter hgf
      obtain ⟨s, hs, hgr⟩ := mem_mergedRows.mp hgm
      exact ⟨s, hs, g, hgr, hcond.2, Option.isSome_iff_exists.mpr ⟨q, hgp⟩⟩
    · rintro ⟨s, hs, g, hg, hvend, hpsome⟩
      have hgm : g ∈ mergedRows sel grouped := mem_mergedRows.mpr ⟨s, hs, hg⟩
      constructor
      · have hvm : v ∈ (mergedRows sel grouped).map GRec.vend :=
          List.mem_map.mpr ⟨g, hgm, hvend⟩
        obtain ⟨y, hy, hxy⟩ := dedupBy_cover (fun a b => a == b)
          (fun a => beq_self_eq_true a) _ v hvm
        rw [beq_iff_eq] at hxy
        exact hxy ▸ hy
      · rw [List.any_eq_true]
        have hpm : (g.pep, g.dose) ∈
            (mergedRows sel grouped).map (fun g2 => (g2.pep, g2.dose)) :=
          List.mem_map.mpr ⟨g, hgm, rfl⟩
        obtain ⟨pr, hpr, hcov⟩ := dedupBy_cover pairEq pairEq_refl _ _ hpm
        refine ⟨pr, hpr, ?_⟩
        unfold cellVal
        apply minF_isSome
        obtain ⟨q, hq⟩ := Option.isSome_iff_exists.mp hpsome
        have hginf : g ∈ (mergedRows sel grouped).filter
            (fun g2 => pairEq (g2.pep, g2.dose) pr && (g2.vend == v)) := by
          refine List.mem_filter.mpr ⟨hgm, ?_⟩
          rw [hcov, hvend]
          simp
        exact List.ne_nil_of_mem (List.mem_filterMap.mpr ⟨g, hginf, hq⟩)
  · intro v
    rw [colTotal_eq_sum_core grouped hgok1 sel hselok1 hnd v]
    have h1 : sel.map (fun s => (rowVendorPrice grouped s v).getD ⟨0, 1⟩) =
        (sel.map (fun s => rowVendorPrice grouped s v)).map
          (fun o => o.getD ⟨0, 1⟩) := by
      rw [List.map_map]
      rfl
    rw [h1, sumF_getD_filterMap]
    congr 1
    rw [List.filterMap_map]
    rfl
  · exact List.perm_insertionSort _ _
  · haveI htot : IsTotal (List Char)
        (fun a b => (colTotal sel grouped a).ble (colTotal sel grouped b) = true) := by
      constructor
      intro a b
      unfold Frac.ble
      rcases Int.le_total ((colTotal sel grouped a).num * (colTotal sel grouped b).den)
        ((colTotal sel grouped b).num * (colTotal sel grouped a).den) with h | h
      · exact Or.inl (by simpa using h)
      · exact Or.inr (by simpa using h)
    haveI htr : IsTrans (List Char)
        (fun a b => (colTotal sel grouped a).ble (colTotal sel grouped b) = true) := by
      constructor
      intro a b c hab hbc
      rw [Frac.ble_iff (hctden a) (hctden b)] at hab
      rw [Frac.ble_iff (hctden b) (hctden c)] at hbc
      rw [Frac.ble_iff (hctden a) (hctden c)]
      exact le_trans hab hbc
    have hsorted := List.sorted_insertionSort
      (fun a b => (colTotal sel grouped a).ble (colTotal sel grouped b) = true)
      (retainedVendors sel grouped)
    exact List.Pairwise.imp
      (fun hab => (Frac.ble_iff (hctden _) (hctden _)).mp hab) hsorted

/-- Witness for the amended projection claim: the spec's own example — two
selected rows where vendor V has prices 41 and 40 and no other vendor
prices either row — satisfies every hypothesis, so V totals 81 and is the
only retained column. -/
theorem projection_amended_witness :
    ([SelKey.mk (lit "X") (some ⟨5, 1⟩) (some ⟨50, 1⟩),
      SelKey.mk (lit "Y") (some ⟨10, 1⟩) (some ⟨100, 1⟩)] ≠ ([] : List SelKey)) ∧
    (∀ g ∈ [GRec.mk (lit "X") ⟨5, 1⟩ ⟨50, 1⟩ (lit "V") (some ⟨41, 1⟩),
            GRec.mk (lit "Y") ⟨10, 1⟩ ⟨100, 1⟩ (lit "V") (some ⟨40, 1⟩)],
      0 < g.dose.den ∧ 0 < (g.price.getD ⟨0, 1⟩).den) ∧
    (∀ s ∈ [SelKey.mk (lit "X") (some ⟨5, 1⟩) (some ⟨50, 1⟩),
            SelKey.mk (lit "Y") (some ⟨10, 1⟩) (some ⟨100, 1⟩)],
      0 < (s.dose.getD ⟨0, 1⟩).den) ∧
    ([SelKey.mk (lit "X") (some ⟨5, 1⟩) (some ⟨50, 1⟩),
      SelKey.mk (lit "Y") (some ⟨10, 1⟩) (some ⟨100, 1⟩)].Pairwise
        (fun s1 s2 => samePair s1 s2 = false)) ∧
    ((∀ v, v ∈ retainedVendors
        [SelKey.mk (lit "X") (some ⟨5, 1⟩) (some ⟨50, 1⟩),
         SelKey.mk (lit "Y") (some ⟨10, 1⟩) (some ⟨100, 1⟩)]
        [GRec.mk (lit "X") ⟨5, 1⟩ ⟨50, 1⟩ (lit "V") (some ⟨41, 1⟩),
         GRec.mk (lit "Y") ⟨10, 1⟩ ⟨100, 1⟩ (lit "V") (some ⟨40, 1⟩)] ↔
      ∃ s ∈ [SelKey.mk (lit "X") (some ⟨5, 1⟩) (some ⟨50, 1⟩),
             SelKey.mk (lit "Y") (some ⟨10, 1⟩) (some ⟨100, 1⟩)],
      ∃ g ∈ rowMatches
        [GRec.mk (lit "X") ⟨5, 1⟩ ⟨50, 1⟩ (lit "V") (some ⟨41, 1⟩),
         GRec.mk (lit "Y") ⟨10, 1⟩ ⟨100, 1⟩ (lit "V") (some ⟨40, 1⟩)] s,
        g.vend = v ∧ g.price.isSome = true) ∧
    (∀ v, colTotal
        [SelKey.mk (lit "X") (some ⟨5, 1⟩) (some ⟨50, 1⟩),
         SelKey.mk (lit "Y") (some ⟨10, 1⟩) (some ⟨100, 1⟩)]
        [GRec.mk (lit "X") ⟨5, 1⟩ ⟨50, 1⟩ (lit "V") (some ⟨41, 1⟩),
         GRec.mk (lit "Y") ⟨10, 1⟩ ⟨100, 1⟩ (lit "V") (some ⟨40, 1⟩)] v =
      sumF ([SelKey.mk (lit "X") (some ⟨5, 1⟩) (some ⟨50, 1⟩),
             SelKey.mk (lit "Y") (some ⟨10, 1⟩) (some ⟨100, 1⟩)].filterMap
        (fun s => rowVendorPrice
          [GRec.mk (lit "X") ⟨5, 1⟩ ⟨50, 1⟩ (lit "V") (some ⟨41, 1⟩),
           GRec.mk (lit "Y") ⟨10, 1⟩ ⟨100, 1⟩ (lit "V") (some ⟨40, 1⟩)] s v))) ∧
    (orderedVendors
        [SelKey.mk (lit "X") (some ⟨5, 1⟩) (some ⟨50, 1⟩),
         SelKey.mk (lit "Y") (some ⟨10, 1⟩) (some ⟨100, 1⟩)]
        [GRec.mk (lit "X") ⟨5, 1⟩ ⟨50, 1⟩ (lit "V") (some ⟨41, 1⟩),
         GRec.mk (lit "Y") ⟨10, 1⟩ ⟨100, 1⟩ (lit "V") (some ⟨40, 1⟩)]).Perm
      (retainedVendors
        [SelKey.mk (lit "X") (some ⟨5, 1⟩) (some ⟨50, 1⟩),
         SelKey.mk (lit "Y") (some ⟨10, 1⟩) (some ⟨100, 1⟩)]
        [GRec.mk (lit "X") ⟨5, 1⟩ ⟨50, 1⟩ (lit "V") (some ⟨41, 1⟩),
         GRec.mk (lit "Y") ⟨10, 1⟩ ⟨100, 1⟩ (lit "V") (some ⟨40, 1⟩)]) ∧
    (orderedVendors
        [SelKey.mk (lit "X") (some ⟨5, 1⟩) (some ⟨50, 1⟩),
         SelKey.mk (lit "Y") (some ⟨10, 1⟩) (some ⟨100, 1⟩)]
        [GRec.mk (lit "X") ⟨5, 1⟩ ⟨50, 1⟩ (lit "V") (some ⟨41, 1⟩),
         GRec.mk (lit "Y") ⟨10, 1⟩ ⟨100, 1⟩ (lit "V") (some ⟨40, 1⟩)]).Pairwise
      (fun a b =>
        (colTotal
          [SelKey.mk (lit "X") (some ⟨5, 1⟩) (some ⟨50, 1⟩),
           SelKey.mk (lit "Y") (some ⟨10, 1⟩) (some ⟨100, 1⟩)]
          [GRec.mk (lit "X") ⟨5, 1⟩ ⟨50, 1⟩ (lit "V") (some ⟨41, 1⟩),
           GRec.mk (lit "Y") ⟨10, 1⟩ ⟨100, 1⟩ (lit "V") (some ⟨40, 1⟩)] a).val ≤
        (colTotal
          [SelKey.mk (lit "X") (some ⟨5, 1⟩) (some ⟨50, 1⟩),
           SelKey.mk (lit "Y") (some ⟨10, 1⟩) (some ⟨100, 1⟩)]
          [GRec.mk (lit "X") ⟨5, 1⟩ ⟨50, 1⟩ (lit "V") (some ⟨41, 1⟩),
           GRec.mk (lit "Y") ⟨10, 1⟩ ⟨100, 1⟩ (lit "V") (some ⟨40, 1⟩)] b).val)) :=
  ⟨by decide, by decide, by decide, by decide,
    projection_amended _ _ (by decide) (by decide) (by decide) (by decide)⟩

/-- Counterexample to the literal C9 claim on totals: the selection keys
"X|5|50" and "X|5.0|50" both decode, denote the same pivot index pair
(Peptide = X, Dose = 5), and are min-collapsed into one pivot row, so with
a single matching grouped row priced 41 the vendor's projected TOTAL is 41,
not the 82 the per-selected-row sum prescribes. -/
theorem projection_collision_cex :
    decodeAll [lit "X|5|50", lit "X|5.0|50"] =
      some [SelKey.mk (lit "X") (some ⟨5, 1⟩) (some ⟨50, 1⟩),
            SelKey.mk (lit "X") (some ⟨50, 10⟩) (some ⟨50, 1⟩)] ∧
    samePair (SelKey.mk (lit "X") (some ⟨5, 1⟩) (some ⟨50, 1⟩))
      (SelKey.mk (lit "X") (some ⟨50, 10⟩) (some ⟨50, 1⟩)) = true ∧
    colTotal
      [SelKey.mk (lit "X") (some ⟨5, 1⟩) (some ⟨50, 1⟩),
       SelKey.mk (lit "X") (some ⟨50, 10⟩) (some ⟨50, 1⟩)]
      [GRec.mk (lit "X") ⟨5, 1⟩ ⟨50, 1⟩ (lit "V") (some ⟨41, 1⟩)]
      (lit "V") = ⟨41, 1⟩ ∧
    sumF ([SelKey.mk (lit "X") (some ⟨5, 1⟩) (some ⟨50, 1⟩),
           SelKey.mk (lit "X") (some ⟨50, 10⟩) (some ⟨50, 1⟩)].filterMap
      (fun s => rowVendorPrice
        [GRec.mk (lit "X") ⟨5, 1⟩ ⟨50, 1⟩ (lit "V") (some ⟨41, 1⟩)]
        s (lit "V"))) = ⟨82, 1⟩ ∧
    Frac.beqv ⟨41, 1⟩ ⟨82, 1⟩ = false :=
  ⟨by decide, by decide, by decide, by decide, by decide⟩
